import Mathlib

/-!
# Verification of the crimebackend vector database core

A shallow embedding of the Rust in-memory vector database (`src/db.rs` and
the route layer `src/routes/collection.rs`) together with proofs of the
specification's claims about it.

Modelling conventions:

* `f32` values are modelled by `F32`: either NaN or an exact real number.
  Finite-precision rounding and infinities are not modelled; theorems about
  norms and scores hold in exact arithmetic ("up to floating-point
  rounding" in the spec's words).
* Rust's `HashMap` is modelled by an association list with unique keys;
  the operations used by the code (`get`, `get_mut`, `insert` of a fresh
  key, `remove`, `contains_key`) are represented by the corresponding
  association-list operations.
* `BinaryHeap<ScoreIndex>` is modelled by a list kept sorted in descending
  order of the (total) `ScoreIndex` order: `push` is ordered insertion,
  `peek`/`pop` read/remove the head (a maximal element), and
  `into_sorted_vec` is reversal.  Under a total order this is observably
  equivalent to the binary heap.
* Mutating database operations take and return the database value; the Rust
  `Result<T, Error>` return is paired with the post-state, so that
  "unchanged on error" is an actual statement about the model.
* The module `src/similarity.rs` (distance kernels, `normalize`,
  `get_cache_attr`, the `ScoreIndex` ordering) is not part of the provided
  sources; those definitions are modelled from the specification and are
  marked `Modelled from the spec:` in their doc comments.
-/

namespace CrimeBackend

/-- Model of an IEEE-754 single-precision float: NaN, or a finite value
modelled as an exact real.  Infinities and rounding are not modelled. -/
inductive F32 where
  | nan : F32
  | fin : ℝ → F32

namespace F32

/-- Addition with NaN propagation. -/
def add : F32 → F32 → F32
  | fin a, fin b => fin (a + b)
  | _, _ => nan

/-- Subtraction with NaN propagation. -/
def sub : F32 → F32 → F32
  | fin a, fin b => fin (a - b)
  | _, _ => nan

/-- Multiplication with NaN propagation. -/
def mul : F32 → F32 → F32
  | fin a, fin b => fin (a * b)
  | _, _ => nan

/-- Negation with NaN propagation. -/
def neg : F32 → F32
  | fin a => fin (-a)
  | nan => nan

/-- Division with NaN propagation; division by zero is out of the modelled
range (no infinities) and mapped to NaN. -/
noncomputable def div : F32 → F32 → F32
  | fin a, fin b => if b = 0 then nan else fin (a / b)
  | _, _ => nan

/-- Square root with NaN propagation; negative arguments give NaN. -/
noncomputable def sqrtF : F32 → F32
  | fin a => if a < 0 then nan else fin (Real.sqrt a)
  | nan => nan

/-- IEEE `<` on f32: any comparison involving NaN is false. -/
def ieeeLt : F32 → F32 → Prop
  | fin a, fin b => a < b
  | _, _ => False

/-- IEEE `<=` on f32: any comparison involving NaN is false. -/
def ieeeLe : F32 → F32 → Prop
  | fin a, fin b => a ≤ b
  | _, _ => False

/-- IEEE `==` on f32: NaN is not equal to anything, including itself. -/
def ieeeEq : F32 → F32 → Prop
  | fin a, fin b => a = b
  | _, _ => False

end F32

/-- Dot product of two f32 vectors: left fold of the pairwise products,
starting from `0.0`, with NaN propagation (`Iterator::sum` over `zip`). -/
def dotF (a b : List F32) : F32 :=
  (List.zipWith F32.mul a b).foldl F32.add (F32.fin 0)

/-- Sum of squares of a vector. -/
def sumSq (v : List F32) : F32 := dotF v v

/-- L2 norm of a vector. -/
noncomputable def normF (v : List F32) : F32 := F32.sqrtF (sumSq v)

/-- Modelled from the spec: `similarity::normalize` (the module
`src/similarity.rs` is not among the provided sources).  "At insert time,
every stored vector is L2-normalized"; "normalization of a zero vector
yields zero".  A vector of magnitude zero (and one whose magnitude is NaN,
which fails the positivity guard) is returned unchanged; otherwise every
component is divided by the magnitude. -/
noncomputable def normalize (v : List F32) : List F32 :=
  match normF v with
  | F32.nan => v
  | F32.fin m => if m = 0 then v else v.map (fun x => F32.div x (F32.fin m))

/-- The distance metric of a collection (`similarity::Distance`). -/
inductive Distance where
  | euclidean : Distance
  | cosine : Distance
  | dotProduct : Distance
deriving DecidableEq

/-- Modelled from the spec: the per-query "cache attribute".  "For cosine
this is the L2-normalized query; for dot and euclidean it is the query
unchanged." -/
noncomputable def get_cache_attr (d : Distance) (query : List F32) : List F32 :=
  match d with
  | Distance.cosine => normalize query
  | _ => query

/-- Modelled from the spec: the distance kernels of `src/similarity.rs`.
Euclidean is the squared L2 distance; cosine is `1 − dot(a, b̂)` against the
normalized query passed as the cache attribute; dot is the negated dot
product. -/
noncomputable def get_distance_fn (d : Distance) :
    List F32 → List F32 → List F32 → F32 :=
  match d with
  | Distance.euclidean => fun a b _ =>
      (List.zipWith (fun x y => F32.mul (F32.sub x y) (F32.sub x y)) a b).foldl
        F32.add (F32.fin 0)
  | Distance.cosine => fun a _ attr => F32.sub (F32.fin 1) (dotF a attr)
  | Distance.dotProduct => fun a b _ => F32.neg (dotF a b)

/-- A scored embedding index (`similarity::ScoreIndex`). -/
structure ScoreIndex where
  score : F32
  index : ℕ

/-- Modelled from the spec: the comparator key on scores used by the
`Ord` instance of `ScoreIndex`.  Finite scores compare by value and "NaN
scores compare strictly greater than any finite score". -/
def F32.keyLt : F32 → F32 → Prop
  | F32.fin a, F32.fin b => a < b
  | F32.fin _, F32.nan => True
  | F32.nan, _ => False

/-- Modelled from the spec: the strict `ScoreIndex` order.  "The heap's
comparator orders by score ascending.  Ties are broken by the embedding's
index (position in the collection) ascending." -/
def ScoreIndex.lt (a b : ScoreIndex) : Prop :=
  F32.keyLt a.score b.score ∨ (a.score = b.score ∧ a.index < b.index)

/-- The reflexive closure of `ScoreIndex.lt`. -/
def ScoreIndex.le (a b : ScoreIndex) : Prop :=
  ScoreIndex.lt a b ∨ a = b

open Classical in
/-- `BinaryHeap::push`, on the sorted-list model of the heap: ordered
insertion keeping the list sorted in descending `ScoreIndex` order. -/
noncomputable def heapPush (si : ScoreIndex) : List ScoreIndex → List ScoreIndex
  | [] => [si]
  | top :: rest =>
      if ScoreIndex.lt top si then si :: top :: rest else top :: heapPush si rest

/-- One iteration body of the selection loop of
`Collection::get_similarity` (src/db.rs:160-166): push the incoming
element, then pop the maximum if the heap exceeded `k`. -/
noncomputable def heapPushBound (k : ℕ) (si : ScoreIndex)
    (heap : List ScoreIndex) : List ScoreIndex :=
  let h := heapPush si heap
  if k < h.length then h.tail else h

open Classical in
/-- The selection loop of `Collection::get_similarity` (src/db.rs:158-167).
`none` models the panic of `heap.peek().unwrap()` on an empty heap (reached
exactly when `heap.len() >= k` with an empty heap, i.e. `k = 0` on a
non-empty stream). -/
noncomputable def selectLoop (k : ℕ) :
    List ScoreIndex → List ScoreIndex → Option (List ScoreIndex)
  | [], heap => some heap
  | si :: rest, heap =>
      if heap.length < k then
        selectLoop k rest (heapPushBound k si heap)
      else
        match heap.head? with
        | none => none
        | some top =>
            if ScoreIndex.lt si top then
              selectLoop k rest (heapPushBound k si heap)
            else
              selectLoop k rest heap

/-- An embedding: id, vector, optional string-to-string metadata
(src/db.rs:180-184).  The metadata `HashMap` is an association list. -/
structure Embedding where
  id : String
  vector : List F32
  metadata : Option (List (String × String))

/-- A similarity query result (src/db.rs:45-48). -/
structure SimilarityResult where
  score : F32
  embedding : Embedding

/-- The comparison operators of the numeric metadata filter
(src/db.rs:51-57). -/
inductive MetadataEqualities where
  | GreaterEqualThan
  | GreaterThan
  | LesserEqualThan
  | LesserThan
  | Equal
deriving DecidableEq

/-- A collection: dimension, metric, embeddings in insertion order
(src/db.rs:73-81). -/
structure Collection where
  dimension : ℕ
  distance : Distance
  embeddings : List Embedding

/-- The database error type (src/db.rs:24-37). -/
inductive DbError where
  | UniqueViolation
  | NotFound
  | DimensionMismatch
  | IDNotFound
deriving DecidableEq

/-- The database: a map from collection name to collection
(src/db.rs:40-42), modelled as an association list with unique keys. -/
structure Db where
  collections : List (String × Collection)

namespace Collection

/-- `Collection::get_id` (src/db.rs:84-89): first embedding with the given
id, if any. -/
def get_id (c : Collection) (id : String) : Option Embedding :=
  c.embeddings.find? (fun e => e.id == id)

/-- Removal of the first element with the given id, returning it and the
remaining list (`Vec::remove` at the found position). -/
def removeFirstById (id : String) : List Embedding → Option (Embedding × List Embedding)
  | [] => none
  | e :: rest =>
      if e.id = id then some (e, rest)
      else
        match removeFirstById id rest with
        | some (r, rest') => some (r, e :: rest')
        | none => none

/-- `Collection::delete_id` (src/db.rs:91-99): remove the first embedding
with the given id, or fail with `IDNotFound`. -/
def delete_id (c : Collection) (id : String) : Except DbError (Embedding × Collection) :=
  match removeFirstById id c.embeddings with
  | some (e, rest) => Except.ok (e, { c with embeddings := rest })
  | none => Except.error DbError.IDNotFound

end Collection

/-- Lookup in an association list with string keys: the model of
`HashMap::get` (first — and with unique keys, only — binding). -/
def alistLookup {α : Type} (key : String) : List (String × α) → Option α
  | [] => none
  | (k, v) :: rest => if k = key then some v else alistLookup key rest

/-- Numeric value of a decimal digit character, if it is one. -/
def digitVal (c : Char) : Option ℕ :=
  if '0' ≤ c ∧ c ≤ '9' then some (c.toNat - 48) else none

/-- Value of a digit string, most significant first. -/
def digitsVal (cs : List Char) : Option ℕ :=
  cs.foldlM (fun acc c => (digitVal c).map (fun d => acc * 10 + d)) 0

/-- Modelled from the spec: `str::parse::<f32>` as used by
`Collection::get_metadata_number` ("the metadata string is parsed as a
32-bit float").  Decimal numerals with optional sign and fractional part;
exponent, `inf` and `nan` spellings are not modelled, and the value is
exact (no rounding to binary32). -/
def parseF32 (s : String) : Option F32 :=
  let cs := s.toList
  let signAndRest : Bool × List Char :=
    match cs with
    | '-' :: rest => (true, rest)
    | '+' :: rest => (false, rest)
    | _ => (false, cs)
  let intPart := signAndRest.2.takeWhile (fun c => (digitVal c).isSome)
  let rest := signAndRest.2.dropWhile (fun c => (digitVal c).isSome)
  let fracPart : Option (List Char) :=
    match rest with
    | [] => some []
    | '.' :: fs => if fs.all (fun c => (digitVal c).isSome) then some fs else none
    | _ => none
  match fracPart with
  | none => none
  | some fs =>
      if intPart.isEmpty && fs.isEmpty then none
      else
        match digitsVal intPart, digitsVal fs with
        | some ip, some fp =>
            let q : ℚ := (ip : ℚ) + (fp : ℚ) / ((10 : ℚ) ^ fs.length)
            some (F32.fin ((if signAndRest.1 then -q else q : ℚ) : ℝ))
        | _, _ => none

/-- The filter predicate of `Collection::get_metadata_number`
(src/db.rs:121-137): metadata present, key present, value parses, and the
selected IEEE comparison of the parsed value against the threshold holds;
otherwise false. -/
def numMatches (key : String) (value : F32) (equality : MetadataEqualities)
    (e : Embedding) : Prop :=
  match e.metadata with
  | none => False
  | some metadata =>
      match alistLookup key metadata with
      | none => False
      | some s =>
          match parseF32 s with
          | none => False
          | some mv =>
              match equality with
              | MetadataEqualities.GreaterEqualThan => F32.ieeeLe value mv
              | MetadataEqualities.GreaterThan => F32.ieeeLt value mv
              | MetadataEqualities.LesserEqualThan => F32.ieeeLe mv value
              | MetadataEqualities.LesserThan => F32.ieeeLt mv value
              | MetadataEqualities.Equal => F32.ieeeEq mv value

open Classical in
/-- `Collection::get_metadata_number` (src/db.rs:117-142): filter the
embeddings by the metadata predicate, then take the first `k`. -/
noncomputable def Collection.get_metadata_number (c : Collection) (key : String)
    (value : F32) (equality : MetadataEqualities) (k : ℕ) : List Embedding :=
  let filtered := c.embeddings.filter (fun e => decide (numMatches key value equality e))
  filtered.take k

/-- The default embedding used to model the (never out-of-bounds) index
access `self.embeddings[index]` in `get_similarity`. -/
def defaultEmbedding : Embedding := ⟨"", [], none⟩

/-- The scored stream of `Collection::get_similarity` (src/db.rs:148-156):
every embedding, scored against the query by the metric's kernel (with the
per-query cache attribute computed once), tagged with its index. -/
noncomputable def simScores (c : Collection) (query : List F32) : List ScoreIndex :=
  c.embeddings.enum.map
    (fun p => ScoreIndex.mk
      (get_distance_fn c.distance p.2.vector query (get_cache_attr c.distance query)) p.1)

/-- `Collection::get_similarity` (src/db.rs:144-176): score every embedding
against the query, run the bounded top-k selection loop, then drain the
heap into ascending order (`into_sorted_vec`) and attach the embeddings.
`none` models the panic inside the selection loop. -/
noncomputable def Collection.get_similarity (c : Collection) (query : List F32)
    (k : ℕ) : Option (List SimilarityResult) :=
  match selectLoop k (simScores c query) [] with
  | none => none
  | some heap =>
      some (heap.reverse.map
        (fun si => SimilarityResult.mk si.score (c.embeddings.getD si.index defaultEmbedding)))

/-- The embedding actually stored by `insert_into_collection`
(src/db.rs:242-245): the vector is normalized exactly when the collection's
metric is cosine, otherwise the embedding is stored unchanged. -/
noncomputable def normalizeEmbedding (d : Distance) (e : Embedding) : Embedding :=
  if d = Distance.cosine then { e with vector := normalize e.vector } else e

/-- The embedding list kept by `insert_into_collection` before pushing the
incoming embedding (src/db.rs:247-249): if some stored embedding has the
incoming id, the first such embedding is removed (`delete_id`, whose result
is discarded). -/
def insertKeep (id : String) (l : List Embedding) : List Embedding :=
  if l.any (fun e => e.id == id) then
    match Collection.removeFirstById id l with
    | some (_, rest) => rest
    | none => l
  else l

namespace Db

/-- `Db::new` (src/db.rs:187-191). -/
def new : Db := ⟨[]⟩

/-- `Db::get_collection` (src/db.rs:267-269). -/
def get_collection (db : Db) (name : String) : Option Collection :=
  alistLookup name db.collections

/-- Replacement of the value bound to a key, the model of
`HashMap::get_mut` followed by in-place mutation of the value. -/
def updateAt (name : String) (c : Collection) :
    List (String × Collection) → List (String × Collection)
  | [] => []
  | (n, c0) :: rest =>
      if n = name then (n, c) :: rest else (n, c0) :: updateAt name c rest

/-- `Db::create_collection` (src/db.rs:197-216).  The best-effort snapshot
write (`self.save()`) does not affect the in-memory state and is not
modelled. -/
def create_collection (db : Db) (name : String) (dimension : ℕ)
    (distance : Distance) : Except DbError Collection × Db :=
  if (alistLookup name db.collections).isSome then
    (Except.error DbError.UniqueViolation, db)
  else
    let collection : Collection := ⟨dimension, distance, []⟩
    (Except.ok collection, ⟨db.collections ++ [(name, collection)]⟩)

/-- `Db::delete_collection` (src/db.rs:218-226). -/
def delete_collection (db : Db) (name : String) : Except DbError Unit × Db :=
  if (alistLookup name db.collections).isSome then
    (Except.ok Unit.unit, ⟨db.collections.filter (fun p => p.1 != name)⟩)
  else
    (Except.error DbError.NotFound, db)

open Classical in
/-- `Db::insert_into_collection` (src/db.rs:228-254): look up the
collection (`NotFound`), check the dimension (`DimensionMismatch`),
normalize the vector if the metric is cosine, remove any existing embedding
with the incoming id, push the new embedding. -/
noncomputable def insert_into_collection (db : Db) (collection_name : String)
    (embedding : Embedding) : Except DbError Unit × Db :=
  match alistLookup collection_name db.collections with
  | none => (Except.error DbError.NotFound, db)
  | some collection =>
      if embedding.vector.length ≠ collection.dimension then
        (Except.error DbError.DimensionMismatch, db)
      else
        let emb := normalizeEmbedding collection.distance embedding
        let embs := insertKeep emb.id collection.embeddings
        (Except.ok Unit.unit,
          ⟨updateAt collection_name { collection with embeddings := embs ++ [emb] }
            db.collections⟩)

/-- `Db::collection_delete_id` (src/db.rs:256-264). -/
def collection_delete_id (db : Db) (collection_name : String) (id : String) :
    Except DbError Embedding × Db :=
  match alistLookup collection_name db.collections with
  | none => (Except.error DbError.NotFound, db)
  | some collection =>
      match collection.delete_id id with
      | Except.ok (e, c') =>
          (Except.ok e, ⟨updateAt collection_name c' db.collections⟩)
      | Except.error err => (Except.error err, db)

end Db

/-- Database states reachable from the fresh empty database (`Db::new`) by
the mutating operations.  Each step takes the post-state of an operation,
whether it succeeded or failed (a failed operation leaves the state
unchanged), so all behaviours of the API are covered. -/
inductive Reachable : Db → Prop where
  | new : Reachable Db.new
  | create (db : Db) (name : String) (dim : ℕ) (dist : Distance) :
      Reachable db → Reachable (Db.create_collection db name dim dist).2
  | drop (db : Db) (name : String) :
      Reachable db → Reachable (Db.delete_collection db name).2
  | insert (db : Db) (name : String) (e : Embedding) :
      Reachable db → Reachable (Db.insert_into_collection db name e).2
  | deleteId (db : Db) (name : String) (id : String) :
      Reachable db → Reachable (Db.collection_delete_id db name id).2

/-- `req.k.unwrap_or(1)` in the HTTP query handler
(src/routes/collection.rs:83): an absent `k` defaults to 1; an explicit `k`
is passed through unchanged. -/
def resolveK (k : Option ℕ) : ℕ := k.getD 1

/-- The status-code mapping of the HTTP insert handler
(src/routes/collection.rs:155-169). -/
def insertStatusCode : Except DbError Unit → ℕ
  | Except.ok _ => 201
  | Except.error DbError.NotFound => 404
  | Except.error DbError.UniqueViolation => 409
  | Except.error DbError.DimensionMismatch => 400
  | Except.error DbError.IDNotFound => 400

/-- Modelled from the spec: the atoms of the snapshot byte stream (§4.5).
`bincode` is an external crate; its output is modelled as a stream of
typed tokens with fixed field ordering, which preserves the codec's
essential properties (self-delimiting fields, exact round-trip of floats
and strings). -/
inductive Token where
  | nat : ℕ → Token
  | str : String → Token
  | f32 : F32 → Token
  | dist : Distance → Token
  | tag : Bool → Token

/-- Length-prefixed sequence encoding (the `bincode` collection format). -/
def encList {α : Type} (enc : α → List Token) (l : List α) : List Token :=
  Token.nat l.length :: (l.map enc).flatten

/-- Decoding of a fixed number of elements. -/
def decListAux {α : Type} (dec : List Token → Option (α × List Token)) :
    ℕ → List Token → Option (List α × List Token)
  | 0, ts => some ([], ts)
  | n + 1, ts =>
      match dec ts with
      | some (a, ts') =>
          match decListAux dec n ts' with
          | some (l, r) => some (a :: l, r)
          | none => none
      | none => none

/-- Decoding of a length-prefixed sequence. -/
def decList {α : Type} (dec : List Token → Option (α × List Token)) :
    List Token → Option (List α × List Token)
  | Token.nat n :: ts => decListAux dec n ts
  | _ => none

/-- Encoding of one f32. -/
def encF32 (x : F32) : List Token := [Token.f32 x]

/-- Decoding of one f32. -/
def decF32 : List Token → Option (F32 × List Token)
  | Token.f32 x :: ts => some (x, ts)
  | _ => none

/-- Encoding of one metadata entry. -/
def encMeta (p : String × String) : List Token := [Token.str p.1, Token.str p.2]

/-- Decoding of one metadata entry. -/
def decMeta : List Token → Option ((String × String) × List Token)
  | Token.str k :: Token.str v :: ts => some ((k, v), ts)
  | _ => none

/-- Encoding of an embedding: id, vector, optional metadata, in field
order. -/
def encEmbedding (e : Embedding) : List Token :=
  Token.str e.id :: encList encF32 e.vector ++
    (match e.metadata with
     | none => [Token.tag false]
     | some m => Token.tag true :: encList encMeta m)

/-- Decoding of an embedding. -/
def decEmbedding (ts : List Token) : Option (Embedding × List Token) :=
  match ts with
  | Token.str id :: ts₁ =>
      match decList decF32 ts₁ with
      | some (v, Token.tag false :: ts₂) => some (⟨id, v, none⟩, ts₂)
      | some (v, Token.tag true :: ts₂) =>
          match decList decMeta ts₂ with
          | some (m, ts₃) => some (⟨id, v, some m⟩, ts₃)
          | none => none
      | _ => none
  | _ => none

/-- Encoding of a collection: dimension, distance, embeddings, in field
order. -/
def encCollection (c : Collection) : List Token :=
  Token.nat c.dimension :: Token.dist c.distance :: encList encEmbedding c.embeddings

/-- Decoding of a collection. -/
def decCollection (ts : List Token) : Option (Collection × List Token) :=
  match ts with
  | Token.nat dim :: Token.dist dist :: ts₁ =>
      match decList decEmbedding ts₁ with
      | some (es, ts₂) => some (⟨dim, dist, es⟩, ts₂)
      | none => none
  | _ => none

/-- Encoding of one named collection. -/
def encNamed (p : String × Collection) : List Token :=
  Token.str p.1 :: encCollection p.2

/-- Decoding of one named collection. -/
def decNamed (ts : List Token) : Option ((String × Collection) × List Token) :=
  match ts with
  | Token.str n :: ts₁ =>
      match decCollection ts₁ with
      | some (c, ts₂) => some ((n, c), ts₂)
      | none => none
  | _ => none

/-- `Db::save_to_store` (src/db.rs:284-290) up to the external pieces: the
whole-database serialization (`bincode::serialize`); the `fs::write` of the
produced bytes is the identity on the byte stream. -/
def Db.save_to_store (db : Db) : List Token :=
  encList encNamed db.collections

/-- `Db::load_from_store` (src/db.rs:271-282), existing-file branch:
deserialize the stored bytes into a database
(`bincode::deserialize`); a decode failure is `none`. -/
def Db.load_from_store (bytes : List Token) : Option Db :=
  match decList decNamed bytes with
  | some (cs, _) => some ⟨cs⟩
  | none => none

/-! ## Claim C10: the error contract of `insert_into_collection` -/

/-- C10: `insert_into_collection(name, e)` returns `Err(NotFound)` iff no
collection named `name` exists, returns `Err(DimensionMismatch)` iff the
collection exists and `len(e.vector)` differs from its dimension, leaves
the database unchanged on either error, and never returns
`UniqueViolation` — so the HTTP insert handler's 409 "Vector already
exists" branch is unreachable. -/
theorem insert_error_contract (db : Db) (name : String) (e : Embedding) :
    ((Db.insert_into_collection db name e).1 = Except.error DbError.NotFound ↔
      Db.get_collection db name = none) ∧
    ((Db.insert_into_collection db name e).1 = Except.error DbError.DimensionMismatch ↔
      ∃ c, Db.get_collection db name = some c ∧ e.vector.length ≠ c.dimension) ∧
    (∀ err, (Db.insert_into_collection db name e).1 = Except.error err →
      (Db.insert_into_collection db name e).2 = db) ∧
    ((Db.insert_into_collection db name e).1 ≠ Except.error DbError.UniqueViolation) ∧
    (insertStatusCode (Db.insert_into_collection db name e).1 ≠ 409) := by
  unfold Db.insert_into_collection Db.get_collection
  cases h : alistLookup name db.collections with
  | none => simp [insertStatusCode]
  | some c =>
      by_cases hlen : e.vector.length ≠ c.dimension
      · simp [hlen, insertStatusCode]
      · simp [hlen, insertStatusCode]

/-! ## Claim C8: snapshot round-trip -/

theorem decListAux_encoded {α : Type} (dec : List Token → Option (α × List Token))
    (enc : α → List Token) (hdec : ∀ a r, dec (enc a ++ r) = some (a, r)) :
    ∀ (l : List α) (r : List Token),
      decListAux dec l.length ((l.map enc).flatten ++ r) = some (l, r)
  | [], r => by simp [decListAux]
  | a :: l, r => by
      simp only [List.map_cons, List.flatten_cons, List.length_cons, List.append_assoc,
        decListAux, hdec, decListAux_encoded dec enc hdec l r]

theorem decList_encoded {α : Type} (dec : List Token → Option (α × List Token))
    (enc : α → List Token) (hdec : ∀ a r, dec (enc a ++ r) = some (a, r))
    (l : List α) (r : List Token) :
    decList dec (encList enc l ++ r) = some (l, r) := by
  simp [encList, decList, decListAux_encoded dec enc hdec l r]

theorem decF32_encoded (x : F32) (r : List Token) :
    decF32 (encF32 x ++ r) = some (x, r) := rfl

theorem decMeta_encoded (p : String × String) (r : List Token) :
    decMeta (encMeta p ++ r) = some (p, r) := rfl

theorem decEmbedding_encoded (e : Embedding) (r : List Token) :
    decEmbedding (encEmbedding e ++ r) = some (e, r) := by
  obtain ⟨id, v, m⟩ := e
  cases m with
  | none =>
      simp [encEmbedding, decEmbedding, List.append_assoc,
        decList_encoded decF32 encF32 decF32_encoded]
  | some meta =>
      simp [encEmbedding, decEmbedding, List.append_assoc,
        decList_encoded decF32 encF32 decF32_encoded,
        decList_encoded decMeta encMeta decMeta_encoded]

theorem decCollection_encoded (c : Collection) (r : List Token) :
    decCollection (encCollection c ++ r) = some (c, r) := by
  obtain ⟨dim, dist, es⟩ := c
  simp [encCollection, decCollection,
    decList_encoded decEmbedding encEmbedding decEmbedding_encoded]

theorem decNamed_encoded (p : String × Collection) (r : List Token) :
    decNamed (encNamed p ++ r) = some (p, r) := by
  obtain ⟨n, c⟩ := p
  simp [encNamed, decNamed, decCollection_encoded]

/-- C8: deserializing the bytes produced by serializing a database yields
the database back (exactly in the model, where f32 values round-trip
bit-exactly as they do under `bincode`). -/
theorem snapshot_roundtrip (db : Db) :
    Db.load_from_store (Db.save_to_store db) = some db := by
  obtain ⟨cs⟩ := db
  have h := decList_encoded decNamed encNamed decNamed_encoded cs []
  simp only [List.append_nil] at h
  simp [Db.load_from_store, Db.save_to_store, h]

/-! ## Claim C9: the numeric metadata filter -/

/-- The acceptance predicate of the numeric metadata filter as the
specification words it: the metadata exists, contains the key, the value
string parses as a 32-bit float, and the parsed value satisfies the chosen
comparison against the threshold. -/
def specNumPred (key : String) (value : F32) (equality : MetadataEqualities)
    (e : Embedding) : Prop :=
  ∃ m s x, e.metadata = some m ∧ alistLookup key m = some s ∧ parseF32 s = some x ∧
    (match equality with
     | MetadataEqualities.GreaterEqualThan => F32.ieeeLe value x
     | MetadataEqualities.GreaterThan => F32.ieeeLt value x
     | MetadataEqualities.LesserEqualThan => F32.ieeeLe x value
     | MetadataEqualities.LesserThan => F32.ieeeLt x value
     | MetadataEqualities.Equal => F32.ieeeEq x value)

theorem numMatches_iff_spec (key : String) (value : F32)
    (equality : MetadataEqualities) (e : Embedding) :
    numMatches key value equality e ↔ specNumPred key value equality e := by
  unfold numMatches specNumPred
  cases hm : e.metadata with
  | none => simp
  | some m =>
      cases hs : alistLookup key m with
      | none => simp [hs]
      | some s =>
          cases hx : parseF32 s with
          | none => simp [hs, hx]
          | some x => simp [hs, hx]

open Classical in
/-- C9: `get_metadata_number(key, value, equality, k)` returns exactly the
first `k` embeddings, in insertion order, whose metadata exists, contains
the key, and whose value string parses as a 32-bit float satisfying the
chosen comparison against the threshold; all other embeddings are
excluded, and the result has length at most `k`. -/
theorem get_metadata_number_spec (c : Collection) (key : String) (value : F32)
    (equality : MetadataEqualities) (k : ℕ) :
    Collection.get_metadata_number c key value equality k =
      (c.embeddings.filter (fun e => decide (specNumPred key value equality e))).take k ∧
    (Collection.get_metadata_number c key value equality k).length ≤ k ∧
    (Collection.get_metadata_number c key value equality k).Sublist c.embeddings ∧
    ∀ e ∈ Collection.get_metadata_number c key value equality k,
      specNumPred key value equality e := by
  have hfe : c.embeddings.filter (fun e => decide (numMatches key value equality e)) =
      c.embeddings.filter (fun e => decide (specNumPred key value equality e)) := by
    apply List.filter_congr
    intro e _
    simp [decide_eq_decide, numMatches_iff_spec]
  refine ⟨?_, ?_, ?_, ?_⟩
  · unfold Collection.get_metadata_number
    rw [hfe]
  · unfold Collection.get_metadata_number
    exact List.length_take_le k _
  · unfold Collection.get_metadata_number
    exact (List.take_sublist _ _).trans (List.filter_sublist _)
  · intro e he
    unfold Collection.get_metadata_number at he
    rw [hfe] at he
    have := List.mem_of_mem_take he
    have := List.of_mem_filter this
    simpa using this

/-! ## Association-list and removal helpers -/

theorem alistLookup_mem {α : Type} (name : String) (l : List (String × α)) (v : α)
    (h : alistLookup name l = some v) : (name, v) ∈ l := by
  induction l with
  | nil => simp [alistLookup] at h
  | cons p rest ih =>
      obtain ⟨k, w⟩ := p
      unfold alistLookup at h
      split at h
      · next hk =>
          simp only [Option.some.injEq] at h
          subst hk; subst h
          exact List.mem_cons_self _ _
      · exact List.mem_cons_of_mem _ (ih h)

theorem mem_updateAt (name : String) (c : Collection) (l : List (String × Collection))
    (p : String × Collection) (h : p ∈ Db.updateAt name c l) : p ∈ l ∨ p = (name, c) := by
  induction l with
  | nil => simp [Db.updateAt] at h
  | cons q rest ih =>
      obtain ⟨k, w⟩ := q
      unfold Db.updateAt at h
      split at h
      · next hk =>
          rcases List.mem_cons.mp h with h | h
          · right; rw [h, hk]
          · left; exact List.mem_cons_of_mem _ h
      · next hk =>
          rcases List.mem_cons.mp h with h | h
          · left; rw [h]; exact List.mem_cons_self _ _
          · rcases ih h with h' | h'
            · left; exact List.mem_cons_of_mem _ h'
            · right; exact h'

theorem alistLookup_updateAt_self (name : String) (c c₀ : Collection)
    (l : List (String × Collection)) (h : alistLookup name l = some c₀) :
    alistLookup name (Db.updateAt name c l) = some c := by
  induction l with
  | nil => simp [alistLookup] at h
  | cons q rest ih =>
      obtain ⟨k, w⟩ := q
      by_cases hk : k = name
      · subst hk
        simp [Db.updateAt, alistLookup]
      · simp only [alistLookup, if_neg hk] at h
        simp [Db.updateAt, alistLookup, hk, ih h]

theorem alistLookup_updateAt_other (name n : String) (hne : ¬ n = name)
    (c : Collection) (l : List (String × Collection)) :
    alistLookup n (Db.updateAt name c l) = alistLookup n l := by
  induction l with
  | nil => simp [Db.updateAt]
  | cons q rest ih =>
      obtain ⟨k, w⟩ := q
      by_cases hk : k = name
      · subst hk
        have hkn : ¬ k = n := fun h => hne h.symm
        simp [Db.updateAt, alistLookup, hkn]
      · simp [Db.updateAt, alistLookup, hk, ih]

theorem removeFirstById_none (id : String) (l : List Embedding) :
    Collection.removeFirstById id l = none ↔ ∀ x ∈ l, x.id ≠ id := by
  induction l with
  | nil => simp [Collection.removeFirstById]
  | cons e rest ih =>
      by_cases he : e.id = id
      · simp [Collection.removeFirstById, he]
      · simp only [Collection.removeFirstById, if_neg he]
        cases h : Collection.removeFirstById id rest with
        | none =>
            simp only [List.forall_mem_cons]
            exact ⟨fun _ => ⟨he, ih.mp h⟩, fun _ => trivial⟩
        | some p =>
            obtain ⟨r, rest'⟩ := p
            simp only [List.forall_mem_cons]
            constructor
            · intro hcontra; cases hcontra
            · intro ⟨_, hall⟩
              rw [ih.mpr hall] at h
              cases h

theorem removeFirstById_some (id : String) (l : List Embedding) (e : Embedding)
    (rest : List Embedding) (h : Collection.removeFirstById id l = some (e, rest)) :
    ∃ l₁ l₂, l = l₁ ++ e :: l₂ ∧ rest = l₁ ++ l₂ ∧ e.id = id ∧ ∀ x ∈ l₁, x.id ≠ id := by
  induction l generalizing e rest with
  | nil => simp [Collection.removeFirstById] at h
  | cons e₀ l₀ ih =>
      by_cases he : e₀.id = id
      · simp only [Collection.removeFirstById, if_pos he, Option.some.injEq,
          Prod.mk.injEq] at h
        exact ⟨[], l₀, by simp [h.1], by simp [h.2], h.1 ▸ he, by simp⟩
      · simp only [Collection.removeFirstById, if_neg he] at h
        cases h0 : Collection.removeFirstById id l₀ with
        | none => rw [h0] at h; cases h
        | some p =>
            obtain ⟨r, rest'⟩ := p
            rw [h0] at h
            simp only [Option.some.injEq, Prod.mk.injEq] at h
            obtain ⟨he1, he2⟩ := h
            subst he1
            obtain ⟨l₁, l₂, hl, hr, hid, hnone⟩ := ih _ _ h0
            refine ⟨e₀ :: l₁, l₂, by simp [hl], by simp [← he2, hr], hid, ?_⟩
            intro x hx
            rcases List.mem_cons.mp hx with hx | hx
            · exact hx ▸ he
            · exact hnone x hx

theorem normalize_length (v : List F32) : (normalize v).length = v.length := by
  unfold normalize
  cases h : normF v with
  | nan => rfl
  | fin m => by_cases hm : m = 0 <;> simp [hm]

/-! ## Well-formedness of reachable database states -/

/-- The per-collection invariants of the data model (spec §3): every vector
has the collection's dimension, ids are pairwise distinct, and in a cosine
collection every stored vector is an output of `normalize`. -/
def CollectionWf (c : Collection) : Prop :=
  (∀ e ∈ c.embeddings, e.vector.length = c.dimension) ∧
  List.Pairwise (fun a b => a.id ≠ b.id) c.embeddings ∧
  (c.distance = Distance.cosine → ∀ e ∈ c.embeddings, ∃ u, e.vector = normalize u)

/-- All collections of a database are well-formed. -/
def DbWf (db : Db) : Prop := ∀ p ∈ db.collections, CollectionWf p.2

theorem normalizeEmbedding_id (d : Distance) (e : Embedding) :
    (normalizeEmbedding d e).id = e.id := by
  unfold normalizeEmbedding
  split <;> rfl

theorem normalizeEmbedding_length (d : Distance) (e : Embedding) :
    (normalizeEmbedding d e).vector.length = e.vector.length := by
  unfold normalizeEmbedding
  split
  · exact normalize_length e.vector
  · rfl

theorem insertKeep_sublist (id : String) (l : List Embedding) :
    (insertKeep id l).Sublist l := by
  unfold insertKeep
  split
  · cases h : Collection.removeFirstById id l with
    | none => exact List.Sublist.refl l
    | some p =>
        obtain ⟨r, rest⟩ := p
        obtain ⟨l₁, l₂, hl, hr, _, _⟩ := removeFirstById_some id l r rest h
        rw [hl, hr]
        exact List.Sublist.append_left (List.sublist_cons_self _ _) l₁
  · exact List.Sublist.refl l

theorem insertKeep_no_id (id : String) (l : List Embedding)
    (hnodup : List.Pairwise (fun a b => a.id ≠ b.id) l) :
    ∀ x ∈ insertKeep id l, x.id ≠ id := by
  unfold insertKeep
  split
  · next hany =>
      cases h : Collection.removeFirstById id l with
      | none =>
          intro x hx
          exact (removeFirstById_none id l).mp h x hx
      | some p =>
          obtain ⟨r, rest⟩ := p
          obtain ⟨l₁, l₂, hl, hr, hid, hl₁⟩ := removeFirstById_some id l r rest h
          subst hl hr
          intro x hx
          rcases List.mem_append.mp hx with hx | hx
          · exact hl₁ x hx
          · have hpair := (List.pairwise_append.mp hnodup).2.1
            have hne : r.id ≠ x.id := (List.pairwise_cons.mp hpair).1 x hx
            rw [← hid]
            exact fun hc => hne hc.symm
  · next hany =>
      intro x hx
      intro hc
      exact hany (List.any_eq_true.mpr ⟨x, hx, by simp [hc]⟩)

theorem insertKeep_append (id : String) (l₁ : List Embedding) (x : Embedding)
    (hx : x.id = id) (hl : ∀ y ∈ l₁, y.id ≠ id) :
    insertKeep id (l₁ ++ [x]) = l₁ := by
  have hrem : Collection.removeFirstById id (l₁ ++ [x]) = some (x, l₁ ++ []) := by
    induction l₁ with
    | nil => simp [Collection.removeFirstById, hx]
    | cons y ys ih =>
        have hy : ¬ y.id = id := hl y (List.mem_cons_self _ _)
        have hys : ∀ z ∈ ys, z.id ≠ id := fun z hz => hl z (List.mem_cons_of_mem _ hz)
        simp only [List.cons_append, Collection.removeFirstById, if_neg hy,
          List.append_eq, ih hys]
  rw [List.append_nil] at hrem
  unfold insertKeep
  rw [hrem]
  rw [if_pos]
  exact List.any_eq_true.mpr ⟨x, by simp, by simp [hx]⟩

theorem find_append_last (l₁ : List Embedding) (x : Embedding) (id : String)
    (hl : ∀ y ∈ l₁, y.id ≠ id) (hx : x.id = id) :
    List.find? (fun e => e.id == id) (l₁ ++ [x]) = some x := by
  induction l₁ with
  | nil => simp [hx]
  | cons y ys ih =>
      have hy : ¬ y.id = id := hl y (List.mem_cons_self _ _)
      have hys : ∀ z ∈ ys, z.id ≠ id := fun z hz => hl z (List.mem_cons_of_mem _ hz)
      have hbeq : (y.id == id) = false := by simp [hy]
      simp only [List.cons_append, List.find?, hbeq]
      exact ih hys

open Classical in
/-- Shape of a successful insert: with the collection present and the
dimension matching, the result is `Ok` and the stored collection gains
`normalizeEmbedding` of the input at the end, after dropping the first
stored embedding carrying the same id. -/
theorem insert_ok_shape (db : Db) (name : String) (e : Embedding) (c₀ : Collection)
    (hc : alistLookup name db.collections = some c₀)
    (hlen : e.vector.length = c₀.dimension) :
    (Db.insert_into_collection db name e).1 = Except.ok Unit.unit ∧
    (Db.insert_into_collection db name e).2 =
      ⟨Db.updateAt name
        { c₀ with embeddings :=
            insertKeep e.id c₀.embeddings ++ [normalizeEmbedding c₀.distance e] }
        db.collections⟩ := by
  unfold Db.insert_into_collection
  rw [hc]
  simp [hlen, normalizeEmbedding_id]

theorem collectionWf_sublist (c : Collection) (l : List Embedding)
    (h : l.Sublist c.embeddings) (hwf : CollectionWf c) :
    CollectionWf { c with embeddings := l } := by
  obtain ⟨hdim, hids, hcos⟩ := hwf
  refine ⟨?_, ?_, ?_⟩
  · intro e he
    exact hdim e (h.mem he)
  · exact hids.sublist h
  · intro hc e he
    exact hcos hc e (h.mem he)

theorem collectionWf_insert_preserved (c₀ : Collection) (e : Embedding)
    (hwf : CollectionWf c₀) (hlen : e.vector.length = c₀.dimension) :
    CollectionWf { c₀ with
      embeddings := insertKeep e.id c₀.embeddings ++ [normalizeEmbedding c₀.distance e] } := by
  obtain ⟨hdim, hids, hcos⟩ := hwf
  have hsub := insertKeep_sublist e.id c₀.embeddings
  have hnoid := insertKeep_no_id e.id c₀.embeddings hids
  refine ⟨?_, ?_, ?_⟩
  · intro x hx
    rcases List.mem_append.mp hx with hx | hx
    · exact hdim x (hsub.mem hx)
    · rcases List.mem_singleton.mp hx with rfl
      simp [normalizeEmbedding_length, hlen]
  · rw [List.pairwise_append]
    refine ⟨hids.sublist hsub, List.pairwise_singleton _ _, ?_⟩
    intro a ha b hb
    rcases List.mem_singleton.mp hb with rfl
    rw [normalizeEmbedding_id]
    exact hnoid a ha
  · intro hc x hx
    have hc' : c₀.distance = Distance.cosine := hc
    rcases List.mem_append.mp hx with hx | hx
    · exact hcos hc' x (hsub.mem hx)
    · rcases List.mem_singleton.mp hx with rfl
      refine ⟨e.vector, ?_⟩
      simp [normalizeEmbedding, hc']

theorem reachable_wf (db : Db) (h : Reachable db) : DbWf db := by
  induction h with
  | new => intro p hp; simp [Db.new] at hp
  | create db name dim dist _ ih =>
      intro p hp
      unfold Db.create_collection at hp
      split at hp
      · exact ih p hp
      · rcases List.mem_append.mp hp with h' | h'
        · exact ih p h'
        · rcases List.mem_singleton.mp h' with rfl
          exact ⟨by simp, by simp, by simp⟩
  | drop db name _ ih =>
      intro p hp
      unfold Db.delete_collection at hp
      split at hp
      · exact ih p (List.mem_of_mem_filter hp)
      · exact ih p hp
  | insert db name e _ ih =>
      intro p hp
      cases hc : alistLookup name db.collections with
      | none =>
          unfold Db.insert_into_collection at hp
          rw [hc] at hp
          exact ih p hp
      | some c₀ =>
          by_cases hlen : e.vector.length = c₀.dimension
          · have hshape := insert_ok_shape db name e c₀ hc hlen
            rw [hshape.2] at hp
            rcases mem_updateAt name _ db.collections p hp with h' | h'
            · exact ih p h'
            · rw [h']
              exact collectionWf_insert_preserved c₀ e
                (ih (name, c₀) (alistLookup_mem name db.collections c₀ hc)) hlen
          · unfold Db.insert_into_collection at hp
            simp only [hc] at hp
            rw [if_pos hlen] at hp
            exact ih p hp
  | deleteId db name id _ ih =>
      intro p hp
      cases hc : alistLookup name db.collections with
      | none =>
          unfold Db.collection_delete_id at hp
          rw [hc] at hp
          exact ih p hp
      | some c₀ =>
          unfold Db.collection_delete_id at hp
          simp only [hc] at hp
          cases hd : Collection.delete_id c₀ id with
          | ok pr =>
              obtain ⟨r, c'⟩ := pr
              simp only [hd] at hp
              rcases mem_updateAt name c' db.collections p hp with h' | h'
              · exact ih p h'
              · rw [h']
                unfold Collection.delete_id at hd
                cases hrem : Collection.removeFirstById id c₀.embeddings with
                | none => rw [hrem] at hd; cases hd
                | some pr₀ =>
                    obtain ⟨r₀, rest₀⟩ := pr₀
                    rw [hrem] at hd
                    simp only [Except.ok.injEq, Prod.mk.injEq] at hd
                    obtain ⟨l₁, l₂, _, hr, _, _⟩ :=
                      removeFirstById_some id c₀.embeddings r₀ rest₀ hrem
                    have hwf₀ := ih (name, c₀) (alistLookup_mem name db.collections c₀ hc)
                    have hsub : rest₀.Sublist c₀.embeddings := by
                      obtain ⟨l₁', l₂', hl', hr', _, _⟩ :=
                        removeFirstById_some id c₀.embeddings r₀ rest₀ hrem
                      rw [hl', hr']
                      exact List.Sublist.append_left (List.sublist_cons_self _ _) l₁'
                    rw [← hd.2]
                    exact collectionWf_sublist c₀ rest₀ hsub hwf₀
          | error err =>
              simp only [hd] at hp
              exact ih p hp

/-! ## Claim C5: dimension invariant -/

/-- C5: in every database state reachable by the operations, every
embedding stored in a collection has a vector whose length equals the
collection's dimension (insertion rejects mismatched vectors with
`DimensionMismatch` before mutating anything). -/
theorem dimension_invariant (db : Db) (name : String) (c : Collection)
    (h : Reachable db) (hc : Db.get_collection db name = some c) :
    ∀ e ∈ c.embeddings, e.vector.length = c.dimension :=
  (reachable_wf db h (name, c) (alistLookup_mem name db.collections c hc)).1

theorem dimension_invariant_witness :
    Db.get_collection (Db.insert_into_collection
      (Db.create_collection Db.new "A" 1 Distance.euclidean).2 "A"
      (Embedding.mk "x" [F32.fin 1] none)).2 "A" =
      some (Collection.mk 1 Distance.euclidean [Embedding.mk "x" [F32.fin 1] none]) ∧
    (Embedding.mk "x" [F32.fin 1] none).vector.length =
      (Collection.mk 1 Distance.euclidean [Embedding.mk "x" [F32.fin 1] none]).dimension :=
  ⟨rfl,
    dimension_invariant _ "A" _
      (Reachable.insert _ "A" (Embedding.mk "x" [F32.fin 1] none)
        (Reachable.create Db.new "A" 1 Distance.euclidean Reachable.new))
      (by rfl) (Embedding.mk "x" [F32.fin 1] none) (List.mem_singleton.mpr rfl)⟩

/-! ## Claim C6: id-uniqueness invariant -/

/-- C6: in every database state reachable by the operations, the ids of the
embeddings stored in any collection are pairwise distinct; insertion
preserves this by removing any existing embedding with the incoming id
before pushing the new one. -/
theorem id_uniqueness_invariant (db : Db) (name : String) (c : Collection)
    (h : Reachable db) (hc : Db.get_collection db name = some c) :
    List.Pairwise (fun e₁ e₂ => e₁.id ≠ e₂.id) c.embeddings :=
  (reachable_wf db h (name, c) (alistLookup_mem name db.collections c hc)).2.1

theorem id_uniqueness_invariant_witness :
    List.Pairwise (fun e₁ e₂ => e₁.id ≠ e₂.id)
      (Collection.mk 1 Distance.euclidean
        [Embedding.mk "x" [F32.fin 1] none, Embedding.mk "y" [F32.fin 2] none]).embeddings :=
  id_uniqueness_invariant _ "A" _
    (Reachable.insert _ "A" (Embedding.mk "y" [F32.fin 2] none)
      (Reachable.insert _ "A" (Embedding.mk "x" [F32.fin 1] none)
        (Reachable.create Db.new "A" 1 Distance.euclidean Reachable.new)))
    (by rfl)

/-! ## Claim C1: upsert law -/

/-- Successful insert implies the collection existed with a matching
dimension. -/
theorem insert_ok_inv (db : Db) (name : String) (e : Embedding)
    (h : (Db.insert_into_collection db name e).1 = Except.ok Unit.unit) :
    ∃ c₀, alistLookup name db.collections = some c₀ ∧
      e.vector.length = c₀.dimension := by
  unfold Db.insert_into_collection at h
  cases hc : alistLookup name db.collections with
  | none => rw [hc] at h; cases h
  | some c₀ =>
      refine ⟨c₀, rfl, ?_⟩
      simp only [hc] at h
      by_cases hlen : e.vector.length = c₀.dimension
      · exact hlen
      · rw [if_pos hlen] at h; cases h

/-- C1: inserting `e` and then `e'` with the same id into a (reachable)
database leaves the collection with the same number of embeddings as after
the first insert, and looking the id up yields `e'` (with its vector
normalized when the collection is cosine). -/
theorem upsert_law (db : Db) (name : String) (e e' : Embedding)
    (hreach : Reachable db) (hid : e.id = e'.id)
    (h1 : (Db.insert_into_collection db name e).1 = Except.ok Unit.unit)
    (h2 : (Db.insert_into_collection (Db.insert_into_collection db name e).2 name e').1 =
      Except.ok Unit.unit) :
    ∃ c₁ c₂,
      Db.get_collection (Db.insert_into_collection db name e).2 name = some c₁ ∧
      Db.get_collection
        (Db.insert_into_collection (Db.insert_into_collection db name e).2 name e').2 name =
        some c₂ ∧
      c₂.distance = c₁.distance ∧
      Collection.get_id c₂ e.id = some (normalizeEmbedding c₂.distance e') ∧
      c₂.embeddings.length = c₁.embeddings.length := by
  obtain ⟨c₀, hc, hlen⟩ := insert_ok_inv db name e h1
  have hids : List.Pairwise (fun a b => a.id ≠ b.id) c₀.embeddings :=
    (reachable_wf db hreach (name, c₀) (alistLookup_mem name db.collections c₀ hc)).2.1
  have hshape1 := insert_ok_shape db name e c₀ hc hlen
  have hlook1 : alistLookup name (Db.insert_into_collection db name e).2.collections =
      some (Collection.mk c₀.dimension c₀.distance
        (insertKeep e.id c₀.embeddings ++ [normalizeEmbedding c₀.distance e])) := by
    rw [hshape1.2]
    exact alistLookup_updateAt_self name _ c₀ db.collections hc
  obtain ⟨c₁', hc', hlen'⟩ := insert_ok_inv _ name e' h2
  rw [hlook1] at hc'
  injection hc' with hc'
  subst hc'
  have hshape2 := insert_ok_shape _ name e' _ hlook1 hlen'
  have hkeep2 : insertKeep e'.id
      (insertKeep e.id c₀.embeddings ++ [normalizeEmbedding c₀.distance e]) =
      insertKeep e.id c₀.embeddings := by
    apply insertKeep_append
    · rw [normalizeEmbedding_id]; exact hid
    · intro y hy
      rw [← hid]
      exact insertKeep_no_id e.id c₀.embeddings hids y hy
  have hlook2 : alistLookup name
      (Db.insert_into_collection (Db.insert_into_collection db name e).2 name e').2.collections =
      some (Collection.mk c₀.dimension c₀.distance
        (insertKeep e.id c₀.embeddings ++ [normalizeEmbedding c₀.distance e'])) := by
    rw [hshape2.2]
    show alistLookup name
      (Db.updateAt name
        (Collection.mk c₀.dimension c₀.distance
          (insertKeep e'.id
            (insertKeep e.id c₀.embeddings ++ [normalizeEmbedding c₀.distance e]) ++
            [normalizeEmbedding c₀.distance e']))
        (Db.insert_into_collection db name e).2.collections) =
      some (Collection.mk c₀.dimension c₀.distance
        (insertKeep e.id c₀.embeddings ++ [normalizeEmbedding c₀.distance e']))
    rw [hkeep2]
    exact alistLookup_updateAt_self name _ _ _ hlook1
  refine ⟨_, _, hlook1, hlook2, rfl, ?_, ?_⟩
  · show List.find? (fun x => x.id == e.id)
      (insertKeep e.id c₀.embeddings ++ [normalizeEmbedding c₀.distance e']) =
      some (normalizeEmbedding c₀.distance e')
    exact find_append_last (insertKeep e.id c₀.embeddings)
      (normalizeEmbedding c₀.distance e') e.id
      (insertKeep_no_id e.id c₀.embeddings hids)
      (by rw [normalizeEmbedding_id]; exact hid.symm)
  · simp

theorem upsert_law_witness :
    (Db.insert_into_collection (Db.create_collection Db.new "A" 1 Distance.euclidean).2 "A"
        (Embedding.mk "u" [F32.fin 1] none)).1 = Except.ok Unit.unit ∧
    ∃ c₁ c₂,
      Db.get_collection (Db.insert_into_collection
        (Db.create_collection Db.new "A" 1 Distance.euclidean).2 "A"
        (Embedding.mk "u" [F32.fin 1] none)).2 "A" = some c₁ ∧
      Db.get_collection (Db.insert_into_collection (Db.insert_into_collection
        (Db.create_collection Db.new "A" 1 Distance.euclidean).2 "A"
        (Embedding.mk "u" [F32.fin 1] none)).2 "A" (Embedding.mk "u" [F32.fin 2] none)).2 "A" =
        some c₂ ∧
      c₂.distance = c₁.distance ∧
      Collection.get_id c₂ (Embedding.mk "u" [F32.fin 1] none).id =
        some (normalizeEmbedding c₂.distance (Embedding.mk "u" [F32.fin 2] none)) ∧
      c₂.embeddings.length = c₁.embeddings.length :=
  ⟨rfl, upsert_law _ "A" _ _
    (Reachable.create Db.new "A" 1 Distance.euclidean Reachable.new) rfl rfl rfl⟩

/-! ## Claim C7: cosine normalization -/

theorem finite_or_nan (v : List F32) :
    (∃ rs : List ℝ, v = rs.map F32.fin) ∨ F32.nan ∈ v := by
  induction v with
  | nil => exact Or.inl ⟨[], rfl⟩
  | cons x xs ih =>
      cases x with
      | nan => exact Or.inr (List.mem_cons_self _ _)
      | fin r =>
          rcases ih with ⟨rs, hrs⟩ | h
          · exact Or.inl ⟨r :: rs, by simp [hrs]⟩
          · exact Or.inr (List.mem_cons_of_mem _ h)

theorem foldl_add_fin (rs : List ℝ) :
    ∀ a : ℝ, (rs.map F32.fin).foldl F32.add (F32.fin a) =
      F32.fin (rs.foldl (· + ·) a) := by
  induction rs with
  | nil => intro a; rfl
  | cons r rs ih => intro a; simpa [F32.add] using ih (a + r)

theorem zipWith_mul_map_fin (rs : List ℝ) :
    List.zipWith F32.mul (rs.map F32.fin) (rs.map F32.fin) =
      (rs.map (fun r => r * r)).map F32.fin := by
  induction rs with
  | nil => rfl
  | cons r rs ih => simp [F32.mul, ih]

theorem sumSq_map_fin (rs : List ℝ) :
    sumSq (rs.map F32.fin) =
      F32.fin ((rs.map (fun r => r * r)).foldl (· + ·) 0) := by
  unfold sumSq dotF
  rw [zipWith_mul_map_fin]
  exact foldl_add_fin _ 0

theorem foldl_add_shift (l : List ℝ) :
    ∀ a : ℝ, l.foldl (· + ·) a = a + l.foldl (· + ·) 0 := by
  induction l with
  | nil => intro a; simp
  | cons r l ih =>
      intro a
      simp only [List.foldl_cons]
      rw [ih (a + r), ih (0 + r)]
      ring

theorem sq_foldl_nonneg (rs : List ℝ) :
    0 ≤ (rs.map (fun r => r * r)).foldl (· + ·) 0 := by
  induction rs with
  | nil => simp
  | cons r rs ih =>
      simp only [List.map_cons, List.foldl_cons]
      rw [foldl_add_shift]
      nlinarith [mul_self_nonneg r]

theorem sq_foldl_eq_zero (rs : List ℝ)
    (h : (rs.map (fun r => r * r)).foldl (· + ·) 0 = 0) : ∀ r ∈ rs, r = 0 := by
  induction rs with
  | nil => simp
  | cons r rs ih =>
      simp only [List.map_cons, List.foldl_cons] at h
      rw [foldl_add_shift] at h
      have h1 := sq_foldl_nonneg rs
      have h2 : r * r = 0 := by nlinarith [mul_self_nonneg r]
      have h3 : (rs.map (fun r => r * r)).foldl (· + ·) 0 = 0 := by nlinarith [mul_self_nonneg r]
      intro x hx
      rcases List.mem_cons.mp hx with rfl | hx
      · exact mul_self_eq_zero.mp h2
      · exact ih h3 x hx

theorem add_nan_left (x : F32) : F32.add F32.nan x = F32.nan := by
  cases x <;> rfl

theorem foldl_add_nan (l : List F32) : l.foldl F32.add F32.nan = F32.nan := by
  induction l with
  | nil => rfl
  | cons x l ih => simpa [add_nan_left] using ih

theorem foldl_add_mem_nan (l : List F32) (h : F32.nan ∈ l) :
    ∀ a : F32, l.foldl F32.add a = F32.nan := by
  induction l with
  | nil => cases h
  | cons x l ih =>
      intro a
      rcases List.mem_cons.mp h with rfl | h
      · have : F32.add a F32.nan = F32.nan := by cases a <;> rfl
        simp only [List.foldl_cons, this]
        exact foldl_add_nan l
      · exact ih h _

theorem zipWith_self_nan (v : List F32) (h : F32.nan ∈ v) :
    F32.nan ∈ List.zipWith F32.mul v v := by
  induction v with
  | nil => cases h
  | cons x v ih =>
      rcases List.mem_cons.mp h with rfl | h
      · exact List.mem_cons_self _ _
      · exact List.mem_cons_of_mem _ (ih h)

theorem sumSq_nan (v : List F32) (h : F32.nan ∈ v) : sumSq v = F32.nan := by
  unfold sumSq dotF
  exact foldl_add_mem_nan _ (zipWith_self_nan v h) _

theorem map_div_fin (rs : List ℝ) (m : ℝ) (hm : ¬ m = 0) :
    (rs.map F32.fin).map (fun x => F32.div x (F32.fin m)) =
      (rs.map (fun r => r / m)).map F32.fin := by
  induction rs with
  | nil => rfl
  | cons r rs ih => simp [F32.div, hm, ih]

theorem foldl_add_map_mul (f : ℝ → ℝ) (c : ℝ) (l : List ℝ) :
    (l.map (fun x => f x * c)).foldl (· + ·) 0 =
      (l.map f).foldl (· + ·) 0 * c := by
  induction l with
  | nil => simp
  | cons r l ih =>
      simp only [List.map_cons, List.foldl_cons]
      rw [foldl_add_shift, foldl_add_shift ((l.map f)) (0 + f r), ih]
      ring

theorem normalize_of_normF_fin (v : List F32) (m : ℝ) (h : normF v = F32.fin m)
    (hm : ¬ m = 0) : normalize v = v.map (fun x => F32.div x (F32.fin m)) := by
  unfold normalize
  rw [h]
  exact if_neg hm

theorem normalize_of_normF_zero (v : List F32) (h : normF v = F32.fin 0) :
    normalize v = v := by
  unfold normalize
  rw [h]
  exact if_pos rfl

theorem normalize_of_normF_nan (v : List F32) (h : normF v = F32.nan) :
    normalize v = v := by
  unfold normalize
  rw [h]

/-- The trichotomy of `normalize`: its output has L2 norm 1, or is the zero
vector (when the input was), or contains a NaN (when the input did). -/
theorem normalize_cases (u : List F32) :
    normF (normalize u) = F32.fin 1 ∨ (∀ x ∈ normalize u, x = F32.fin 0) ∨
      F32.nan ∈ normalize u := by
  rcases finite_or_nan u with ⟨rs, hrs⟩ | hnan
  · subst hrs
    have hsum := sumSq_map_fin rs
    have hS := sq_foldl_nonneg rs
    by_cases hS0 : (rs.map (fun r => r * r)).foldl (· + ·) 0 = 0
    · right; left
      have hnf : normF (rs.map F32.fin) = F32.fin 0 := by
        unfold normF
        rw [hsum, hS0]
        simp [F32.sqrtF]
      rw [normalize_of_normF_zero _ hnf]
      intro x hx
      rcases List.mem_map.mp hx with ⟨r, hr, rfl⟩
      rw [sq_foldl_eq_zero rs hS0 r hr]
    · left
      have hSpos : 0 < (rs.map (fun r => r * r)).foldl (· + ·) 0 :=
        lt_of_le_of_ne hS (Ne.symm hS0)
      have hsq : ¬ Real.sqrt ((rs.map (fun r => r * r)).foldl (· + ·) 0) = 0 := by
        have := Real.sqrt_pos.mpr hSpos
        exact ne_of_gt this
      have hnf : normF (rs.map F32.fin) =
          F32.fin (Real.sqrt ((rs.map (fun r => r * r)).foldl (· + ·) 0)) := by
        unfold normF
        rw [hsum]
        simp [F32.sqrtF, not_lt.mpr hS]
      have hnorm : normalize (rs.map F32.fin) =
          (rs.map (fun r => r / Real.sqrt ((rs.map (fun r => r * r)).foldl (· + ·) 0))).map
            F32.fin := by
        rw [normalize_of_normF_fin _ _ hnf hsq]
        exact map_div_fin rs _ hsq
      rw [hnorm]
      unfold normF
      rw [sumSq_map_fin]
      have hmap : ((rs.map (fun r => r /
          Real.sqrt ((rs.map (fun r => r * r)).foldl (· + ·) 0))).map
            (fun r => r * r)).foldl (· + ·) 0 = 1 := by
        set S := (rs.map (fun r => r * r)).foldl (· + ·) 0 with hSdef
        have hss : Real.sqrt S * Real.sqrt S = S := Real.mul_self_sqrt hS
        have heq : (rs.map (fun r => r / Real.sqrt S)).map (fun r => r * r) =
            rs.map (fun r => (r * r) * S⁻¹) := by
          rw [List.map_map]
          apply List.map_congr_left
          intro r _
          simp only [Function.comp_apply]
          field_simp
        rw [heq, foldl_add_map_mul (fun r => r * r) S⁻¹ rs, ← hSdef]
        field_simp
      rw [hmap]
      simp [F32.sqrtF, Real.sqrt_one]
  · right; right
    have hsum := sumSq_nan u hnan
    have hnf : normF u = F32.nan := by
      unfold normF
      rw [hsum]
      rfl
    rw [normalize_of_normF_nan u hnf]
    exact hnan

theorem normF_zero_singleton : normF [F32.fin 0] = F32.fin 0 := by
  have hsum : sumSq [F32.fin 0] = F32.fin 0 := by
    show F32.add (F32.fin 0) (F32.mul (F32.fin 0) (F32.fin 0)) = F32.fin 0
    norm_num [F32.add, F32.mul]
  unfold normF
  rw [hsum]
  norm_num [F32.sqrtF, Real.sqrt_zero]

/-- Evaluation helper: creating a cosine collection `"A"` of dimension 1
and inserting the zero vector stores the zero vector itself (`normalize`
leaves a zero-magnitude vector unchanged). -/
theorem zero_vec_state :
    Db.get_collection (Db.insert_into_collection
      (Db.create_collection Db.new "A" 1 Distance.cosine).2 "A"
      (Embedding.mk "z" [F32.fin 0] none)).2 "A" =
      some (Collection.mk 1 Distance.cosine [Embedding.mk "z" [F32.fin 0] none]) := by
  have hz : normalize [F32.fin 0] = [F32.fin 0] :=
    normalize_of_normF_zero _ normF_zero_singleton
  have hstep : Db.get_collection (Db.insert_into_collection
      (Db.create_collection Db.new "A" 1 Distance.cosine).2 "A"
      (Embedding.mk "z" [F32.fin 0] none)).2 "A" =
      some (Collection.mk 1 Distance.cosine
        [Embedding.mk "z" (normalize [F32.fin 0]) none]) := rfl
  rw [hz] at hstep
  exact hstep

/-- C7 counterexample: in the reachable database obtained by creating a
cosine collection and inserting the zero vector, the stored vector has L2
norm 0, not 1 — the claimed invariant "every stored vector has L2 norm 1"
fails on zero vectors. -/
theorem cosine_norm_counterexample :
    Reachable (Db.insert_into_collection
      (Db.create_collection Db.new "A" 1 Distance.cosine).2 "A"
      (Embedding.mk "z" [F32.fin 0] none)).2 ∧
    Db.get_collection (Db.insert_into_collection
      (Db.create_collection Db.new "A" 1 Distance.cosine).2 "A"
      (Embedding.mk "z" [F32.fin 0] none)).2 "A" =
      some (Collection.mk 1 Distance.cosine [Embedding.mk "z" [F32.fin 0] none]) ∧
    (Collection.mk 1 Distance.cosine [Embedding.mk "z" [F32.fin 0] none]).distance =
      Distance.cosine ∧
    Embedding.mk "z" [F32.fin 0] none ∈
      (Collection.mk 1 Distance.cosine [Embedding.mk "z" [F32.fin 0] none]).embeddings ∧
    ¬ normF (Embedding.mk "z" [F32.fin 0] none).vector = F32.fin 1 := by
  refine ⟨Reachable.insert _ "A" _
      (Reachable.create Db.new "A" 1 Distance.cosine Reachable.new),
    zero_vec_state, rfl, List.mem_singleton.mpr rfl, ?_⟩
  show ¬ normF [F32.fin 0] = F32.fin 1
  rw [normF_zero_singleton]
  intro h
  injection h with h
  exact zero_ne_one h

/-- C7 (amended): in every reachable database, every vector stored in a
cosine collection has L2 norm 1, unless it is the zero vector or contains a
NaN component (in exact arithmetic; the source normalizes only once, at
insert time: the vector pushed by a successful insert is exactly
`normalize` of the input for cosine collections and the unchanged input for
euclidean and dot collections). -/
theorem cosine_norm_amended (db : Db) (name : String) (c : Collection) (e : Embedding)
    (h : Reachable db) (hc : Db.get_collection db name = some c)
    (hcos : c.distance = Distance.cosine) (he : e ∈ c.embeddings) :
    (normF e.vector = F32.fin 1 ∨ (∀ x ∈ e.vector, x = F32.fin 0) ∨
      F32.nan ∈ e.vector) ∧
    (∀ (db' : Db) (name' : String) (e' : Embedding) (c₀ : Collection),
      alistLookup name' db'.collections = some c₀ → e'.vector.length = c₀.dimension →
        Db.get_collection (Db.insert_into_collection db' name' e').2 name' =
          some (Collection.mk c₀.dimension c₀.distance
            (insertKeep e'.id c₀.embeddings ++ [normalizeEmbedding c₀.distance e']))) ∧
    (∀ (d : Distance) (e' : Embedding), ¬ d = Distance.cosine →
      normalizeEmbedding d e' = e') ∧
    (∀ e' : Embedding, (normalizeEmbedding Distance.cosine e').vector = normalize e'.vector) := by
  refine ⟨?_, ?_, ?_, ?_⟩
  · have hwf := reachable_wf db h (name, c) (alistLookup_mem name db.collections c hc)
    obtain ⟨u, hu⟩ := hwf.2.2 hcos e he
    rw [hu]
    exact normalize_cases u
  · intro db' name' e' c₀ hc₀ hlen'
    have hshape := insert_ok_shape db' name' e' c₀ hc₀ hlen'
    rw [hshape.2]
    exact alistLookup_updateAt_self name' _ c₀ db'.collections hc₀
  · intro d e' hd
    unfold normalizeEmbedding
    rw [if_neg hd]
  · intro e'
    unfold normalizeEmbedding
    rw [if_pos rfl]

theorem cosine_norm_amended_witness :
    (Collection.mk 1 Distance.cosine [Embedding.mk "z" [F32.fin 0] none]).distance =
      Distance.cosine ∧
    ((normF (Embedding.mk "z" [F32.fin 0] none).vector = F32.fin 1 ∨
      (∀ x ∈ (Embedding.mk "z" [F32.fin 0] none).vector, x = F32.fin 0) ∨
      F32.nan ∈ (Embedding.mk "z" [F32.fin 0] none).vector) ∧
    (∀ (db' : Db) (name' : String) (e' : Embedding) (c₀ : Collection),
      alistLookup name' db'.collections = some c₀ → e'.vector.length = c₀.dimension →
        Db.get_collection (Db.insert_into_collection db' name' e').2 name' =
          some (Collection.mk c₀.dimension c₀.distance
            (insertKeep e'.id c₀.embeddings ++ [normalizeEmbedding c₀.distance e']))) ∧
    (∀ (d : Distance) (e' : Embedding), ¬ d = Distance.cosine →
      normalizeEmbedding d e' = e') ∧
    (∀ e' : Embedding, (normalizeEmbedding Distance.cosine e').vector = normalize e'.vector)) :=
  ⟨rfl, cosine_norm_amended _ "A" _ _
    (Reachable.insert _ "A" _
      (Reachable.create Db.new "A" 1 Distance.cosine Reachable.new))
    zero_vec_state rfl (List.mem_singleton.mpr rfl)⟩

/-! ## The `ScoreIndex` order and the heap model -/

/-- Whether a score is NaN. -/
def F32.isNaN : F32 → Bool
  | F32.nan => true
  | F32.fin _ => false

theorem keyLt_asymm (a b : F32) (h : F32.keyLt a b) : ¬ F32.keyLt b a := by
  cases a <;> cases b <;> simp [F32.keyLt] at * <;> linarith

theorem keyLt_trans (a b c : F32) (h1 : F32.keyLt a b) (h2 : F32.keyLt b c) :
    F32.keyLt a c := by
  cases a <;> cases b <;> cases c <;> simp [F32.keyLt] at * <;> linarith

theorem keyLt_trichotomy (a b : F32) :
    F32.keyLt a b ∨ F32.keyLt b a ∨ a = b := by
  cases a with
  | nan => cases b with
    | nan => exact Or.inr (Or.inr rfl)
    | fin s => exact Or.inr (Or.inl trivial)
  | fin r => cases b with
    | nan => exact Or.inl trivial
    | fin s =>
        rcases lt_trichotomy r s with h | h | h
        · exact Or.inl h
        · exact Or.inr (Or.inr (by rw [h]))
        · exact Or.inr (Or.inl h)

theorem keyLt_irrefl (a : F32) : ¬ F32.keyLt a a := by
  cases a <;> simp [F32.keyLt]

theorem siLt_asymm (a b : ScoreIndex) (h : ScoreIndex.lt a b) : ¬ ScoreIndex.lt b a := by
  rcases h with h | ⟨hs, hi⟩
  · intro h'
    rcases h' with h' | ⟨hs', _⟩
    · exact keyLt_asymm _ _ h h'
    · rw [hs'] at h
      exact keyLt_irrefl _ h
  · intro h'
    rcases h' with h' | ⟨_, hi'⟩
    · rw [hs] at h'
      exact keyLt_irrefl _ h'
    · omega

theorem siLt_trans (a b c : ScoreIndex) (h1 : ScoreIndex.lt a b)
    (h2 : ScoreIndex.lt b c) : ScoreIndex.lt a c := by
  rcases h1 with h1 | ⟨hs1, hi1⟩
  · rcases h2 with h2 | ⟨hs2, _⟩
    · exact Or.inl (keyLt_trans _ _ _ h1 h2)
    · exact Or.inl (hs2 ▸ h1)
  · rcases h2 with h2 | ⟨hs2, hi2⟩
    · exact Or.inl (hs1 ▸ h2)
    · exact Or.inr ⟨hs1.trans hs2, hi1.trans hi2⟩

theorem siLt_trichotomy (a b : ScoreIndex) :
    ScoreIndex.lt a b ∨ ScoreIndex.lt b a ∨ a = b := by
  rcases keyLt_trichotomy a.score b.score with h | h | h
  · exact Or.inl (Or.inl h)
  · exact Or.inr (Or.inl (Or.inl h))
  · rcases lt_trichotomy a.index b.index with h' | h' | h'
    · exact Or.inl (Or.inr ⟨h, h'⟩)
    · obtain ⟨sa, ia⟩ := a
      obtain ⟨sb, ib⟩ := b
      simp only at h h'
      exact Or.inr (Or.inr (by rw [h, h']))
    · exact Or.inr (Or.inl (Or.inr ⟨h.symm, h'⟩))

theorem siLe_trans (a b c : ScoreIndex) (h1 : ScoreIndex.le a b)
    (h2 : ScoreIndex.le b c) : ScoreIndex.le a c := by
  rcases h1 with h1 | rfl
  · rcases h2 with h2 | rfl
    · exact Or.inl (siLt_trans _ _ _ h1 h2)
    · exact Or.inl h1
  · exact h2

theorem siLe_of_lt (a b : ScoreIndex) (h : ScoreIndex.lt a b) : ScoreIndex.le a b :=
  Or.inl h

theorem siLe_of_not_lt_ne (a b : ScoreIndex) (h : ¬ ScoreIndex.lt a b)
    (hne : ¬ b = a) : ScoreIndex.le b a := by
  rcases siLt_trichotomy a b with h' | h' | h'
  · exact absurd h' h
  · exact Or.inl h'
  · exact absurd h'.symm hne

theorem heapPush_perm (si : ScoreIndex) (h : List ScoreIndex) :
    (heapPush si h).Perm (si :: h) := by
  induction h with
  | nil => exact List.Perm.refl _
  | cons top rest ih =>
      unfold heapPush
      split
      · exact List.Perm.refl _
      · exact (List.Perm.cons top ih).trans (List.Perm.swap si top rest)

theorem heapPush_length (si : ScoreIndex) (h : List ScoreIndex) :
    (heapPush si h).length = h.length + 1 := by
  simpa using (heapPush_perm si h).length_eq

theorem mem_heapPush (si x : ScoreIndex) (h : List ScoreIndex) :
    x ∈ heapPush si h ↔ x = si ∨ x ∈ h := by
  rw [(heapPush_perm si h).mem_iff]
  simp

theorem heapPush_sorted (si : ScoreIndex) (h : List ScoreIndex)
    (hs : List.Pairwise (fun a b => ScoreIndex.le b a) h) :
    List.Pairwise (fun a b => ScoreIndex.le b a) (heapPush si h) := by
  induction h with
  | nil => simp [heapPush]
  | cons top rest ih =>
      unfold heapPush
      split
      · next hlt =>
          refine List.pairwise_cons.mpr ⟨?_, hs⟩
          intro y hy
          rcases List.mem_cons.mp hy with rfl | hy
          · exact siLe_of_lt _ _ hlt
          · exact siLe_trans _ _ _ ((List.pairwise_cons.mp hs).1 y hy) (siLe_of_lt _ _ hlt)
      · next hnlt =>
          obtain ⟨htop, hrest⟩ := List.pairwise_cons.mp hs
          refine List.pairwise_cons.mpr ⟨?_, ih hrest⟩
          intro y hy
          rcases (mem_heapPush si y rest).mp hy with rfl | hy
          · by_cases hne : y = top
            · exact Or.inr hne
            · exact siLe_of_not_lt_ne top y hnlt hne
          · exact htop y hy

/-- The invariant of the selection loop: the heap is a descending-sorted,
duplicate-free selection from the processed prefix of the stream, of size
`min k |processed|`, and every processed element that was not kept is at
least every kept element in the `ScoreIndex` order. -/
structure SelInv (k : ℕ) (processed heap : List ScoreIndex) : Prop where
  sorted : List.Pairwise (fun a b => ScoreIndex.le b a) heap
  len : heap.length = min k processed.length
  sub : ∀ x ∈ heap, x ∈ processed
  nodup : heap.Nodup
  dropped : ∀ x ∈ processed, x ∉ heap → ∀ y ∈ heap, ScoreIndex.le y x

theorem selectLoop_inv (k : ℕ) (stream : List ScoreIndex) :
    ∀ (processed heap out : List ScoreIndex),
      (processed ++ stream).Nodup →
      SelInv k processed heap →
      selectLoop k stream heap = some out →
      SelInv k (processed ++ stream) out := by
  induction stream with
  | nil =>
      intro processed heap out hnd hinv hsel
      unfold selectLoop at hsel
      injection hsel with hsel
      subst hsel
      simpa using hinv
  | cons si rest ih =>
      intro processed heap out hnd hinv hsel
      have hndsi : si ∉ processed := fun h =>
        List.disjoint_of_nodup_append hnd h (List.mem_cons_self _ _)
      have hsimem : si ∉ heap := fun hsi => hndsi (hinv.sub si hsi)
      have hnd' : ((processed ++ [si]) ++ rest).Nodup := by
        rw [List.append_assoc]
        simpa using hnd
      have hout : processed ++ si :: rest = (processed ++ [si]) ++ rest := by
        rw [List.append_assoc]
        rfl
      rw [hout]
      unfold selectLoop at hsel
      by_cases hlt : heap.length < k
      · rw [if_pos hlt] at hsel
        have hpb : heapPushBound k si heap = heapPush si heap := by
          show (if k < (heapPush si heap).length then (heapPush si heap).tail
                else heapPush si heap) = heapPush si heap
          rw [heapPush_length]
          rw [if_neg (by omega)]
        rw [hpb] at hsel
        have hlenp : heap.length = processed.length := by
          have hl := hinv.len
          rcases Nat.le_total k processed.length with hle | hle
          · rw [Nat.min_eq_left hle] at hl; omega
          · rw [Nat.min_eq_right hle] at hl; exact hl
        have hperm : heap.Perm processed := by
          have hsp : heap.Subperm processed :=
            List.subperm_of_subset hinv.nodup hinv.sub
          exact hsp.perm_of_length_le (by omega)
        refine ih (processed ++ [si]) (heapPush si heap) out hnd' ⟨?_, ?_, ?_, ?_, ?_⟩ hsel
        · exact heapPush_sorted si heap hinv.sorted
        · rw [heapPush_length, List.length_append, List.length_singleton,
            Nat.min_eq_right (by omega)]
          omega
        · intro x hx
          rcases (mem_heapPush si x heap).mp hx with rfl | hx
          · exact List.mem_append_right _ (List.mem_singleton.mpr rfl)
          · exact List.mem_append_left _ (hinv.sub x hx)
        · exact ((heapPush_perm si heap).nodup_iff).mpr
            (List.nodup_cons.mpr ⟨hsimem, hinv.nodup⟩)
        · intro x hx hnx y hy
          exfalso
          rcases List.mem_append.mp hx with hx | hx
          · exact hnx ((mem_heapPush si x heap).mpr
              (Or.inr (hperm.mem_iff.mpr hx)))
          · rcases List.mem_singleton.mp hx with rfl
            exact hnx ((mem_heapPush x x heap).mpr (Or.inl rfl))
      · rw [if_neg hlt] at hsel
        cases heap with
        | nil =>
            simp only [List.head?_nil] at hsel
            cases hsel
        | cons top hrest =>
            simp only [List.head?_cons] at hsel
            have hklen : (top :: hrest).length = k := by
              have hl := hinv.len
              have h2 : min k processed.length ≤ k := Nat.min_le_left _ _
              simp only [List.length_cons] at *
              omega
            have hplen : k ≤ processed.length := by
              have hl := hinv.len
              rcases Nat.le_total k processed.length with hle | hle
              · exact hle
              · rw [Nat.min_eq_right hle] at hl; omega
            have htopmax : ∀ y ∈ top :: hrest, ScoreIndex.le y top := by
              intro y hy
              rcases List.mem_cons.mp hy with rfl | hy
              · exact Or.inr rfl
              · exact (List.pairwise_cons.mp hinv.sorted).1 y hy
            by_cases hsi : ScoreIndex.lt si top
            · rw [if_pos hsi] at hsel
              have hpb : heapPushBound k si (top :: hrest) = heapPush si hrest := by
                have hnot : ¬ ScoreIndex.lt top si := siLt_asymm _ _ hsi
                have hpush : heapPush si (top :: hrest) = top :: heapPush si hrest := by
                  simp only [heapPush]
                  rw [if_neg hnot]
                show (if k < (heapPush si (top :: hrest)).length
                      then (heapPush si (top :: hrest)).tail
                      else heapPush si (top :: hrest)) = heapPush si hrest
                rw [hpush, List.length_cons, heapPush_length]
                rw [if_pos (by simp only [List.length_cons] at hklen; omega)]
                rfl
              rw [hpb] at hsel
              refine ih (processed ++ [si]) (heapPush si hrest) out hnd' ⟨?_, ?_, ?_, ?_, ?_⟩ hsel
              · exact heapPush_sorted si hrest (List.Pairwise.of_cons hinv.sorted)
              · rw [heapPush_length, List.length_append, List.length_singleton,
                  Nat.min_eq_left (by omega)]
                simp only [List.length_cons] at hklen
                omega
              · intro x hx
                rcases (mem_heapPush si x hrest).mp hx with rfl | hx
                · exact List.mem_append_right _ (List.mem_singleton.mpr rfl)
                · exact List.mem_append_left _
                    (hinv.sub x (List.mem_cons_of_mem top hx))
              · refine ((heapPush_perm si hrest).nodup_iff).mpr
                  (List.nodup_cons.mpr ⟨?_, ?_⟩)
                · exact fun h => hsimem (List.mem_cons_of_mem top h)
                · exact (List.nodup_cons.mp hinv.nodup).2
              · intro x hx hnx y hy
                rcases (mem_heapPush si y hrest).mp hy with hy' | hy'
                · rw [hy']
                  rcases List.mem_append.mp hx with hx | hx
                  · by_cases hxh : x ∈ top :: hrest
                    · rcases List.mem_cons.mp hxh with hx2 | hx2
                      · rw [hx2]
                        exact siLe_of_lt _ _ hsi
                      · exact absurd ((mem_heapPush si x hrest).mpr (Or.inr hx2)) hnx
                    · exact siLe_trans _ _ _ (siLe_of_lt _ _ hsi)
                        (hinv.dropped x hx hxh top (List.mem_cons_self _ _))
                  · have hx2 := List.mem_singleton.mp hx
                    rw [hx2] at hnx
                    exact absurd ((mem_heapPush si si hrest).mpr (Or.inl rfl)) hnx
                · rcases List.mem_append.mp hx with hx | hx
                  · by_cases hxh : x ∈ top :: hrest
                    · rcases List.mem_cons.mp hxh with hx2 | hx2
                      · rw [hx2]
                        exact htopmax y (List.mem_cons_of_mem top hy')
                      · exact absurd ((mem_heapPush si x hrest).mpr (Or.inr hx2)) hnx
                    · exact hinv.dropped x hx hxh y (List.mem_cons_of_mem top hy')
                  · have hx2 := List.mem_singleton.mp hx
                    rw [hx2] at hnx
                    exact absurd ((mem_heapPush si si hrest).mpr (Or.inl rfl)) hnx
            · rw [if_neg hsi] at hsel
              have htopsi : ScoreIndex.le top si := by
                refine siLe_of_not_lt_ne si top hsi ?_
                intro h
                exact hsimem (h ▸ List.mem_cons_self top hrest)
              refine ih (processed ++ [si]) (top :: hrest) out hnd' ⟨?_, ?_, ?_, ?_, ?_⟩ hsel
              · exact hinv.sorted
              · rw [List.length_append, List.length_singleton,
                  Nat.min_eq_left (by omega)]
                exact hklen
              · intro x hx
                exact List.mem_append_left _ (hinv.sub x hx)
              · exact hinv.nodup
              · intro x hx hnx y hy
                rcases List.mem_append.mp hx with hx | hx
                · exact hinv.dropped x hx hnx y hy
                · rcases List.mem_singleton.mp hx with rfl
                  exact siLe_trans _ _ _ (htopmax y hy) htopsi

theorem selectLoop_isSome (k : ℕ) (hk : 1 ≤ k) (stream : List ScoreIndex) :
    ∀ heap : List ScoreIndex, (selectLoop k stream heap).isSome := by
  induction stream with
  | nil => intro heap; simp [selectLoop]
  | cons si rest ih =>
      intro heap
      unfold selectLoop
      by_cases hlt : heap.length < k
      · rw [if_pos hlt]; exact ih _
      · rw [if_neg hlt]
        cases heap with
        | nil =>
            exfalso
            simp only [List.length_nil] at hlt
            omega
        | cons top hrest =>
            simp only [List.head?_cons]
            by_cases hsi : ScoreIndex.lt si top
            · rw [if_pos hsi]; exact ih _
            · rw [if_neg hsi]; exact ih _

theorem selectLoop_zero_cons (si : ScoreIndex) (rest : List ScoreIndex) :
    selectLoop 0 (si :: rest) [] = none := by
  unfold selectLoop
  rw [if_neg (by omega)]
  rfl

theorem simScores_map_index (c : Collection) (q : List F32) :
    (simScores c q).map ScoreIndex.index = List.range c.embeddings.length := by
  unfold simScores
  rw [List.map_map]
  have h : (ScoreIndex.index ∘ fun p : ℕ × Embedding => ScoreIndex.mk
      (get_distance_fn c.distance p.2.vector q (get_cache_attr c.distance q)) p.1) =
      Prod.fst := rfl
  rw [h, List.enum_map_fst]

theorem simScores_nodup (c : Collection) (q : List F32) : (simScores c q).Nodup :=
  List.Nodup.of_map ScoreIndex.index
    (by rw [simScores_map_index]; exact List.nodup_range _)

theorem simScores_length (c : Collection) (q : List F32) :
    (simScores c q).length = c.embeddings.length := by
  unfold simScores
  rw [List.length_map, List.enum_length]

theorem simScores_index_inj (c : Collection) (q : List F32) :
    ∀ x ∈ simScores c q, ∀ y ∈ simScores c q, x.index = y.index → x = y :=
  List.inj_on_of_nodup_map
    (by rw [simScores_map_index]; exact List.nodup_range _)

theorem get_similarity_core (c : Collection) (q : List F32) (k : ℕ) (hk : 1 ≤ k) :
    ∃ sel : List ScoreIndex,
      selectLoop k (simScores c q) [] = some sel ∧
      Collection.get_similarity c q k = some (sel.reverse.map
        (fun si => SimilarityResult.mk si.score (c.embeddings.getD si.index defaultEmbedding))) ∧
      SelInv k (simScores c q) sel := by
  have hsome := selectLoop_isSome k hk (simScores c q) []
  obtain ⟨sel, hsel⟩ := Option.isSome_iff_exists.mp hsome
  refine ⟨sel, hsel, ?_, ?_⟩
  · unfold Collection.get_similarity
    rw [hsel]
  · have hbase : SelInv k [] [] :=
      ⟨List.Pairwise.nil, by simp, by simp, List.nodup_nil, by simp⟩
    have hres := selectLoop_inv k (simScores c q) [] [] sel
      (by simpa using simScores_nodup c q) hbase hsel
    rw [List.nil_append] at hres
    exact hres

/-! ## Claim C2: top-k shape of similarity results -/

/-- C2: for a query of matching dimension and `k ≥ 1`, `get_similarity`
succeeds; the selection underlying the result has at most `k` entries, its
scores are in non-decreasing order, its embedding indices are pairwise
distinct, and when `k` equals the collection size the indices are exactly
`0..n-1` — every embedding appears exactly once. -/
theorem get_similarity_topk (c : Collection) (q : List F32) (k : ℕ)
    (hk : 1 ≤ k) (hdim : q.length = c.dimension) :
    ∃ sel : List ScoreIndex,
      selectLoop k (simScores c q) [] = some sel ∧
      Collection.get_similarity c q k = some (sel.reverse.map
        (fun si => SimilarityResult.mk si.score (c.embeddings.getD si.index defaultEmbedding))) ∧
      sel.reverse.length ≤ k ∧
      List.Pairwise (fun a b => F32.keyLt a.score b.score ∨ a.score = b.score) sel.reverse ∧
      (sel.reverse.map ScoreIndex.index).Nodup ∧
      (k = c.embeddings.length →
        (sel.reverse.map ScoreIndex.index).Perm (List.range c.embeddings.length)) := by
  obtain ⟨sel, hsel, hres, hinv⟩ := get_similarity_core c q k hk
  refine ⟨sel, hsel, hres, ?_, ?_, ?_, ?_⟩
  · rw [List.length_reverse, hinv.len]
    exact Nat.min_le_left _ _
  · rw [List.pairwise_reverse]
    refine hinv.sorted.imp ?_
    intro a b hab
    rcases hab with hab | hab
    · rcases hab with hab | ⟨hs, _⟩
      · exact Or.inl hab
      · exact Or.inr hs
    · exact Or.inr (by rw [hab])
  · rw [List.map_reverse, List.nodup_reverse]
    exact hinv.nodup.map_on
      (fun x hx y hy hxy =>
        simScores_index_inj c q x (hinv.sub x hx) y (hinv.sub y hy) hxy)
  · intro hkn
    have hlen : sel.length = c.embeddings.length := by
      rw [hinv.len, simScores_length, hkn, Nat.min_self]
    have hperm : sel.Perm (simScores c q) :=
      (List.subperm_of_subset hinv.nodup hinv.sub).perm_of_length_le
        (by rw [simScores_length, hlen])
    have h1 : (sel.reverse.map ScoreIndex.index).Perm (sel.map ScoreIndex.index) :=
      (List.reverse_perm sel).map _
    have h2 := hperm.map ScoreIndex.index
    rw [simScores_map_index] at h2
    exact h1.trans h2

theorem get_similarity_topk_witness :
    1 ≤ 1 ∧ ([F32.fin 0] : List F32).length =
      (Collection.mk 1 Distance.euclidean [Embedding.mk "x" [F32.fin 1] none]).dimension ∧
    ∃ sel : List ScoreIndex,
      selectLoop 1 (simScores (Collection.mk 1 Distance.euclidean
        [Embedding.mk "x" [F32.fin 1] none]) [F32.fin 0]) [] = some sel ∧
      Collection.get_similarity (Collection.mk 1 Distance.euclidean
        [Embedding.mk "x" [F32.fin 1] none]) [F32.fin 0] 1 = some (sel.reverse.map
        (fun si => SimilarityResult.mk si.score
          ((Collection.mk 1 Distance.euclidean
            [Embedding.mk "x" [F32.fin 1] none]).embeddings.getD si.index defaultEmbedding))) ∧
      sel.reverse.length ≤ 1 ∧
      List.Pairwise (fun a b => F32.keyLt a.score b.score ∨ a.score = b.score) sel.reverse ∧
      (sel.reverse.map ScoreIndex.index).Nodup ∧
      (1 = (Collection.mk 1 Distance.euclidean
          [Embedding.mk "x" [F32.fin 1] none]).embeddings.length →
        (sel.reverse.map ScoreIndex.index).Perm (List.range
          (Collection.mk 1 Distance.euclidean
            [Embedding.mk "x" [F32.fin 1] none]).embeddings.length)) :=
  ⟨Nat.le_refl 1, rfl,
    get_similarity_topk (Collection.mk 1 Distance.euclidean
      [Embedding.mk "x" [F32.fin 1] none]) [F32.fin 0] 1 (Nat.le_refl 1) rfl⟩

/-! ## Claim C3: ordering, determinism and NaN handling of the selector -/

/-- C3: the selection underlying `get_similarity` is strictly sorted by
score ascending with ties broken by embedding index ascending (so results
are a deterministic function of the collection and query), and an entry
with NaN score survives only when fewer than `k` stream entries have
non-NaN scores — NaN-scored entries are evicted before finite-scored
ones. -/
theorem get_similarity_order_nan (c : Collection) (q : List F32) (k : ℕ)
    (hk : 1 ≤ k) :
    ∃ sel : List ScoreIndex,
      selectLoop k (simScores c q) [] = some sel ∧
      Collection.get_similarity c q k = some (sel.reverse.map
        (fun si => SimilarityResult.mk si.score (c.embeddings.getD si.index defaultEmbedding))) ∧
      List.Pairwise (fun a b => F32.keyLt a.score b.score ∨
        (a.score = b.score ∧ a.index < b.index)) sel.reverse ∧
      (∀ si ∈ sel, si.score = F32.nan →
        ((simScores c q).filter (fun x => ! F32.isNaN x.score)).length < k) := by
  obtain ⟨sel, hsel, hres, hinv⟩ := get_similarity_core c q k hk
  refine ⟨sel, hsel, hres, ?_, ?_⟩
  · rw [List.pairwise_reverse]
    have hcomb := hinv.sorted.and hinv.nodup
    refine hcomb.imp ?_
    intro a b hab
    obtain ⟨hle, hne⟩ := hab
    rcases hle with hlt | heq
    · exact hlt
    · exact absurd heq.symm hne
  · intro si hsi hnan
    by_contra hcount
    push_neg at hcount
    have hfnodup : ((simScores c q).filter (fun x => ! F32.isNaN x.score)).Nodup :=
      (simScores_nodup c q).filter _
    have hsinot : si ∉ (simScores c q).filter (fun x => ! F32.isNaN x.score) := by
      intro hmem
      have h := List.of_mem_filter hmem
      rw [hnan] at h
      simp [F32.isNaN] at h
    by_cases hall : ∀ f ∈ (simScores c q).filter (fun x => ! F32.isNaN x.score), f ∈ sel
    · have hnodup2 : (si :: (simScores c q).filter (fun x => ! F32.isNaN x.score)).Nodup :=
        List.nodup_cons.mpr ⟨hsinot, hfnodup⟩
      have hsp : (si :: (simScores c q).filter (fun x => ! F32.isNaN x.score)).Subperm sel := by
        refine List.subperm_of_subset hnodup2 ?_
        intro z hz
        rcases List.mem_cons.mp hz with hz' | hz'
        · rw [hz']; exact hsi
        · exact hall z hz'
      have hlen2 := hsp.length_le
      have hsel_len : sel.length ≤ k := by
        rw [hinv.len]
        exact Nat.min_le_left _ _
      simp only [List.length_cons] at hlen2
      omega
    · push_neg at hall
      obtain ⟨f, hf, hfnot⟩ := hall
      have hfs : f ∈ simScores c q := List.mem_of_mem_filter hf
      have hle := hinv.dropped f hfs hfnot si hsi
      have hfin : F32.isNaN f.score = false := by
        have h := List.of_mem_filter hf
        simpa using h
      rcases hle with hlt | heq
      · rcases hlt with hlt | ⟨hs, _⟩
        · rw [hnan] at hlt
          simp [F32.keyLt] at hlt
        · rw [hnan] at hs
          rw [← hs] at hfin
          simp [F32.isNaN] at hfin
      · rw [heq] at hnan
        rw [hnan] at hfin
        simp [F32.isNaN] at hfin

theorem get_similarity_order_nan_witness :
    1 ≤ 1 ∧
    ∃ sel : List ScoreIndex,
      selectLoop 1 (simScores (Collection.mk 1 Distance.euclidean
        [Embedding.mk "x" [F32.fin 1] none]) [F32.fin 0]) [] = some sel ∧
      Collection.get_similarity (Collection.mk 1 Distance.euclidean
        [Embedding.mk "x" [F32.fin 1] none]) [F32.fin 0] 1 = some (sel.reverse.map
        (fun si => SimilarityResult.mk si.score
          ((Collection.mk 1 Distance.euclidean
            [Embedding.mk "x" [F32.fin 1] none]).embeddings.getD si.index defaultEmbedding))) ∧
      List.Pairwise (fun a b => F32.keyLt a.score b.score ∨
        (a.score = b.score ∧ a.index < b.index)) sel.reverse ∧
      (∀ si ∈ sel, si.score = F32.nan →
        ((simScores (Collection.mk 1 Distance.euclidean
          [Embedding.mk "x" [F32.fin 1] none]) [F32.fin 0]).filter
            (fun x => ! F32.isNaN x.score)).length < 1) :=
  ⟨Nat.le_refl 1,
    get_similarity_order_nan (Collection.mk 1 Distance.euclidean
      [Embedding.mk "x" [F32.fin 1] none]) [F32.fin 0] 1 (Nat.le_refl 1)⟩

/-! ## Claim C4: the k policy of the selector -/

/-- C4 counterexample: with an explicit `k = 0` and a non-empty collection,
the first iteration of the selection loop evaluates
`heap.peek().unwrap()` on the empty heap and panics (modelled as `none`) —
`k = 0` is not treated as `k = 1`; and the HTTP surface passes an explicit
`k = 0` through unchanged (`unwrap_or(1)` only substitutes a missing
`k`). -/
theorem similarity_k0_counterexample :
    Collection.get_similarity (Collection.mk 1 Distance.euclidean
      [Embedding.mk "x" [F32.fin 1] none]) [F32.fin 0] 0 = none ∧
    resolveK (some 0) = 0 := by
  constructor
  · unfold Collection.get_similarity
    have hs : simScores (Collection.mk 1 Distance.euclidean
        [Embedding.mk "x" [F32.fin 1] none]) [F32.fin 0] =
        [ScoreIndex.mk (get_distance_fn Distance.euclidean [F32.fin 1] [F32.fin 0]
          (get_cache_attr Distance.euclidean [F32.fin 0])) 0] := rfl
    rw [hs, selectLoop_zero_cons]
  · rfl

/-- C4 (amended): for every `k ≥ 1` the similarity operation succeeds and
behaves as if `k` were clamped to `[1, |C|]`: the selection has exactly
`min k |C|` entries, and `k ≥ |C|` returns every embedding exactly once in
order; the HTTP surface defaults an absent `k` to 1; with an empty
collection any `k` (including 0) yields the empty result; but an explicit
`k = 0` on a non-empty collection hits the `unwrap` panic on the empty heap
instead of being clamped. -/
theorem similarity_k_clamp (c : Collection) (q : List F32) (k : ℕ) (hk : 1 ≤ k) :
    (∃ sel : List ScoreIndex,
      selectLoop k (simScores c q) [] = some sel ∧
      Collection.get_similarity c q k = some (sel.reverse.map
        (fun si => SimilarityResult.mk si.score (c.embeddings.getD si.index defaultEmbedding))) ∧
      sel.length = min k c.embeddings.length ∧
      (c.embeddings.length ≤ k →
        (sel.reverse.map ScoreIndex.index).Perm (List.range c.embeddings.length))) ∧
    resolveK none = 1 ∧
    (Collection.get_similarity c q 0 =
      if c.embeddings.isEmpty then some [] else none) := by
  refine ⟨?_, rfl, ?_⟩
  · obtain ⟨sel, hsel, hres, hinv⟩ := get_similarity_core c q k hk
    refine ⟨sel, hsel, hres, ?_, ?_⟩
    · rw [hinv.len, simScores_length]
    · intro hle
      have hlen : sel.length = c.embeddings.length := by
        rw [hinv.len, simScores_length, Nat.min_eq_right hle]
      have hperm : sel.Perm (simScores c q) :=
        (List.subperm_of_subset hinv.nodup hinv.sub).perm_of_length_le
          (by rw [simScores_length, hlen])
      have h1 : (sel.reverse.map ScoreIndex.index).Perm (sel.map ScoreIndex.index) :=
        (List.reverse_perm sel).map _
      have h2 := hperm.map ScoreIndex.index
      rw [simScores_map_index] at h2
      exact h1.trans h2
  · cases hemb : c.embeddings with
    | nil =>
        have hs : simScores c q = [] := by
          unfold simScores
          rw [hemb]
          rfl
        unfold Collection.get_similarity
        rw [hs]
        simp [selectLoop, hemb]
    | cons e es =>
        have hs : ∃ si rest, simScores c q = si :: rest := by
          unfold simScores
          rw [hemb]
          exact ⟨_, _, rfl⟩
        obtain ⟨si, rest, hs⟩ := hs
        unfold Collection.get_similarity
        rw [hs, selectLoop_zero_cons]
        simp [hemb]

theorem similarity_k_clamp_witness :
    1 ≤ 1 ∧
    ((∃ sel : List ScoreIndex,
      selectLoop 1 (simScores (Collection.mk 1 Distance.euclidean
        [Embedding.mk "x" [F32.fin 1] none]) [F32.fin 0]) [] = some sel ∧
      Collection.get_similarity (Collection.mk 1 Distance.euclidean
        [Embedding.mk "x" [F32.fin 1] none]) [F32.fin 0] 1 = some (sel.reverse.map
        (fun si => SimilarityResult.mk si.score
          ((Collection.mk 1 Distance.euclidean
            [Embedding.mk "x" [F32.fin 1] none]).embeddings.getD si.index defaultEmbedding))) ∧
      sel.length = min 1 (Collection.mk 1 Distance.euclidean
        [Embedding.mk "x" [F32.fin 1] none]).embeddings.length ∧
      ((Collection.mk 1 Distance.euclidean
          [Embedding.mk "x" [F32.fin 1] none]).embeddings.length ≤ 1 →
        (sel.reverse.map ScoreIndex.index).Perm (List.range
          (Collection.mk 1 Distance.euclidean
            [Embedding.mk "x" [F32.fin 1] none]).embeddings.length))) ∧
    resolveK none = 1 ∧
    (Collection.get_similarity (Collection.mk 1 Distance.euclidean
        [Embedding.mk "x" [F32.fin 1] none]) [F32.fin 0] 0 =
      if (Collection.mk 1 Distance.euclidean
        [Embedding.mk "x" [F32.fin 1] none]).embeddings.isEmpty then some [] else none)) :=
  ⟨Nat.le_refl 1,
    similarity_k_clamp (Collection.mk 1 Distance.euclidean
      [Embedding.mk "x" [F32.fin 1] none]) [F32.fin 0] 1 (Nat.le_refl 1)⟩

end CrimeBackend
